import Mathlib

/-!
# golru: a sharded LRU cache with batched recency updates and evictions

Shallow embedding of `src/lru.go`.

* Pointers are indices into allocation stores: `Cache.heap` holds every
  `Value` ever allocated (a `*Value` is an index into it) and `Cache.elems`
  every `list.Element` ever allocated (a `*list.Element` is an index into it,
  the stored number is the element's `Value` field).
* `c.ll`, the `container/list` list, is the sequence of linked elements from
  front to back; an element `e` satisfies `e.list == l` exactly when it occurs
  in that sequence.
* A Go `map[string]*Value` is an association list.
* `MemHashString` wraps the runtime's `memhash`; it is a parameter `hash`.
* `int` and `uint` are 64 bit wide: conversions and `int` arithmetic wrap.
* `uint(float64(cp) * 0.02)` is computed exactly: a float64 is a number with
  53 significant bits, the product is rounded to the nearest one, ties to even.
* The two goroutines started by `NewCache` are the step functions
  `shedGetStep` (one receive on `getch`) and `trimStep` (one receive on
  `pushch`); `Get` and `Add` run the step of the notification they send, so
  every call is processed to quiescence before the next one starts.
* A nil dereference panics and ends the program: the state is `none`. `Add`
  returns its flag before the trimmer runs, so its result is the flag together
  with the state the trimmer leaves, if any.
* An index outside its store, which no call produces, reads as the zero value.
* `Add` is not atomic: `addPublish` and `addLink` are the states it passes
  through before `val.setList(elem)`, in which another goroutine can run a call.
* `trimLoopTrace` is the loop of `trim` with a record of the elements it
  removes; its state component is `trimLoop`.
-/

namespace Golru

/-! ## Machine integers -/

/-- Two's complement wrap of an integer into the range of Go's 64 bit `int`. -/
def wrapInt (x : Int) : Int :=
  (x + 9223372036854775808) % 18446744073709551616 - 9223372036854775808

/-- The conversion `int(u)` of a `uint`. -/
def toInt (u : Nat) : Int := wrapInt (u : Int)

/-! ## float64 arithmetic of `NewCache`

A finite positive float64 is `m * 2^e` with `m < 2^53`. Rounding a natural
number to the nearest such value (ties to even) keeps its 53 leading bits. -/

/-- Number of binary digits of `n`, computed with `fuel` halvings. -/
def bitLenAux : Nat → Nat → Nat
  | 0, _ => 0
  | fuel + 1, n => if n = 0 then 0 else bitLenAux fuel (n / 2) + 1

/-- Number of binary digits of `n`. -/
def bitLen (n : Nat) : Nat := bitLenAux n n

/-- Round `n` to the nearest number with at most 53 significant bits, ties to
even: the float64 nearest to `n`. -/
def roundFloat64 (n : Nat) : Nat :=
  let s := bitLen n - 53
  let q := n / 2 ^ s
  let r := n % 2 ^ s
  if 2 * r > 2 ^ s ∨ (2 * r = 2 ^ s ∧ q % 2 = 1) then (q + 1) * 2 ^ s else q * 2 ^ s

/-- Significand of the float64 constants `0.02 = mant * 2^-58` and
`0.01 = mant * 2^-59` (bit patterns 0x3F947AE147AE147B, 0x3F847AE147AE147B). -/
def mant : Nat := 5764607523034235

/-- The Go expression `uint(float64(cp) * 0.02)`. -/
def mul002 (cp : Nat) : Nat := roundFloat64 (roundFloat64 cp * mant) / 2 ^ 58

/-- The Go expression `uint(float64(cp) * 0.01)`. -/
def mul001 (cp : Nat) : Nat := roundFloat64 (roundFloat64 cp * mant) / 2 ^ 59

/-! ## Data model -/

/-- The struct `Value`: a shard value with its metadata. -/
structure Value where
  k : String
  val : String
  listVal : Option Nat
  sh : Fin 128
deriving DecidableEq

instance : Inhabited Value := ⟨⟨"", "", none, 0⟩⟩

/-- The struct `shard`: the map `m` from keys to `*Value`. -/
structure shard where
  m : List (String × Nat)
deriving DecidableEq

/-- Go `sh.get(key)`: `v, ok := sh.m[key]`. -/
def shard.get (s : shard) (key : String) : Option Nat := s.m.lookup key

/-- Go `sh.del(key)`: `delete(sh.m, key)`. -/
def shard.del (s : shard) (key : String) : shard :=
  ⟨s.m.filter (fun q => q.1 != key)⟩

/-- Go `sh.set(key, val)`: `sh.m[key] = val`. -/
def shard.set (s : shard) (key : String) (p : Nat) : shard :=
  ⟨(key, p) :: (s.del key).m⟩

/-- The struct `CacheConfig`. -/
structure CacheConfig where
  GetThresh : Nat
  DelThresh : Nat
deriving DecidableEq

/-- The struct `Cache`, with the allocation stores and the local variables of
its two goroutines (`a` of `shedGet`, `listLen` of `trim`). -/
structure Cache where
  shards : Fin 128 → shard
  heap : List Value
  elems : List Nat
  ll : List Nat
  cap : Nat
  getThresh : Nat
  delThresh : Nat
  a : List Nat
  listLen : Int

/-- Dereference a `*Value`. -/
def Cache.deref (c : Cache) (p : Nat) : Value := c.heap.getD p default

/-- The shard index `MemHashString(k) % 128`. -/
def shardOf (hash : String → Nat) (k : String) : Fin 128 :=
  ⟨hash k % 128, Nat.mod_lt _ (by decide)⟩

/-! ## container/list -/

/-- `l.PushFront(v)`: allocate an element holding `v` and link it at the front. -/
def PushFront (c : Cache) (p : Nat) : Nat × Cache :=
  (c.elems.length, { c with elems := c.elems ++ [p], ll := c.elems.length :: c.ll })

/-- `l.MoveToFront(e)`: nothing when `e` is not an element of `l` or is already
the front, else relink `e` at the front. -/
def MoveToFront (l : List Nat) (e : Nat) : List Nat :=
  if e ∈ l ∧ l.head? ≠ some e then e :: l.erase e else l

/-- `l.Remove(e)` for a non-nil `e`: unlink `e` when it is an element of `l`. -/
def listRemove (l : List Nat) (e : Nat) : List Nat := l.erase e

/-- `l.Back()`: the last element, nil for an empty list. -/
def Back (l : List Nat) : Option Nat := l.getLast?

/-! ## The cache -/

/-- Go `NewCache(cp, conf)`; `conf = none` is the nil pointer. -/
def NewCache (cp : Nat) (conf : Option CacheConfig) : Cache :=
  let conf := conf.getD ⟨0, 0⟩
  let getThresh :=
    if conf.GetThresh = 0 then (mul002 cp + 2) % 18446744073709551616 else conf.GetThresh
  let delThresh :=
    if conf.DelThresh = 0 then (mul001 cp + 2) % 18446744073709551616 else conf.DelThresh
  { shards := fun _ => ⟨[]⟩
    heap := []
    elems := []
    ll := []
    cap := cp
    getThresh := getThresh
    delThresh := delThresh
    a := []
    listLen := 0 }

/-- Go `c.Len()`. -/
def Cache.Len (c : Cache) : Nat := c.ll.length

/-- The body of the batch loop of `shedGet` for one buffered value `i`: skip
it when `i.listVal` is nil, else `c.ll.MoveToFront(i.listVal)`. -/
def promote (c : Cache) (i : Nat) : Cache :=
  match (c.deref i).listVal with
  | none => c
  | some e => { c with ll := MoveToFront c.ll e }

/-- The batch of `shedGet`: the loop `for _, i := range a`. -/
def flush (c : Cache) (a : List Nat) : Cache := a.foldl promote c

/-- One iteration of the goroutine of `shedGet`: receive `v` from `getch`. -/
def shedGetStep (c : Cache) (v : Nat) : Cache :=
  let a := c.a ++ [v]
  if a.length ≥ c.getThresh then { flush c a with a := [] } else { c with a := a }

/-- The `Value` a list element holds: `e.Value.(*Value)`. -/
def Cache.valueOf (c : Cache) (e : Nat) : Value := c.deref (c.elems.getD e 0)

/-- The loop `for i := 0; i < d; i++` of `trim`, `n` iterations; `none` is the
nil dereference of `c.ll.Remove(c.ll.Back())` on an empty list. -/
def trimLoop : Nat → Cache → Option Cache
  | 0, c => some c
  | n + 1, c =>
    match Back c.ll with
    | none => none
    | some e =>
      let val := c.valueOf e
      trimLoop n { c with
        ll := listRemove c.ll e
        shards := Function.update c.shards val.sh ((c.shards val.sh).del val.k) }

/-- The loop of `trim` with a record of the list elements it removes, in the
order in which it removes them. -/
def trimLoopTrace : Nat → Cache → Option (List Nat × Cache)
  | 0, c => some ([], c)
  | n + 1, c =>
    match Back c.ll with
    | none => none
    | some e =>
      let val := c.valueOf e
      (trimLoopTrace n { c with
        ll := listRemove c.ll e
        shards := Function.update c.shards val.sh ((c.shards val.sh).del val.k) }).map
        (fun r => (e :: r.1, r.2))

/-- The counter of `trim` after `listLen++`. -/
def trimCount (c : Cache) : Int := wrapInt (c.listLen + 1)

/-- The excess `d := listLen - int(c.cap)` computed by `trim`. -/
def trimExcess (c : Cache) : Int := wrapInt (trimCount c - toInt c.cap)

/-- The test `d >= int(c.delThresh)-1` of `trim`. -/
def trimFires (c : Cache) : Prop := trimExcess c ≥ wrapInt (toInt c.delThresh - 1)

instance (c : Cache) : Decidable (trimFires c) := by unfold trimFires; infer_instance

/-- Number of entries the trimmer removes on its next receive: `d` when the
test `d >= int(c.delThresh)-1` succeeds (none for a negative `d`), else 0. -/
def trimAmount (c : Cache) : Nat := if trimFires c then (trimExcess c).toNat else 0

/-- One iteration of the goroutine of `trim`: receive from `pushch`. -/
def trimStep (c : Cache) : Option Cache :=
  if trimFires c then
    (trimLoop (trimExcess c).toNat { c with listLen := trimCount c }).map
      (fun c1 => { c1 with listLen := wrapInt (c1.listLen - trimExcess c) })
  else some { c with listLen := trimCount c }

/-- Go `c.Get(k)`, with the step of the coalescer it notifies. -/
def Get (hash : String → Nat) (c : Cache) (k : String) : (String × Bool) × Cache :=
  match (c.shards (shardOf hash k)).get k with
  | none => (("", false), c)
  | some v => (((c.deref v).val, true), shedGetStep c v)

/-- `val.setList(elem)`. -/
def setList (c : Cache) (p : Nat) (el : Nat) : Cache :=
  { c with heap := c.heap.set p { c.deref p with listVal := some el } }

/-- The state `Add` reaches before it sends on `pushch`, for an absent key. -/
def addEntry (hash : String → Nat) (c : Cache) (k v : String) : Cache :=
  let sh := shardOf hash k
  let val := c.heap.length
  let c1 := { c with
    heap := c.heap ++ [⟨k, v, none, sh⟩]
    shards := Function.update c.shards sh ((c.shards sh).set k val) }
  let r := PushFront c1 val
  setList r.2 val r.1

/-- The state `Add` reaches after `shard.set(k, val)`, for an absent key: the
new `Value` is in its shard, its `listVal` is nil and no list element holds it. -/
def addPublish (hash : String → Nat) (c : Cache) (k v : String) : Cache :=
  let sh := shardOf hash k
  { c with
    heap := c.heap ++ [⟨k, v, none, sh⟩]
    shards := Function.update c.shards sh ((c.shards sh).set k c.heap.length) }

/-- The state `Add` reaches after `c.ll.PushFront(val)` and `c.mu.Unlock()`,
before `val.setList(elem)`: the value is linked, its `listVal` is still nil. -/
def addLink (hash : String → Nat) (c : Cache) (k v : String) : Cache :=
  (PushFront (addPublish hash c k v) c.heap.length).2

/-- Go `c.Add(k, v)`, with the step of the trimmer it notifies: the returned
flag and the state after that step, `none` when the trimmer panicked. -/
def Add (hash : String → Nat) (c : Cache) (k v : String) : Bool × Option Cache :=
  match (c.shards (shardOf hash k)).get k with
  | some _ => (false, some c)
  | none => (true, trimStep (addEntry hash c k v))

/-- Go `c.Remove(k)`; `none` is the nil dereference of `c.ll.Remove(nil)`. -/
def Remove (hash : String → Nat) (c : Cache) (k : String) : Option (Bool × Cache) :=
  let sh := shardOf hash k
  match (c.shards sh).get k with
  | none => some (false, c)
  | some p =>
    let v := c.deref p
    match v.listVal with
    | none => none
    | some e =>
      some (true, { c with
        ll := listRemove c.ll e
        shards := Function.update c.shards sh ((c.shards sh).del v.k) })

/-! ## Reachable states and their invariant -/

/-- Total number of map entries over the 128 shards. -/
def Cache.shardEntries (c : Cache) : Nat := ∑ i : Fin 128, (c.shards i).m.length

/-- Key `k` is present: `Get` and `Add` find it in its shard. -/
def Cache.has (hash : String → Nat) (c : Cache) (k : String) : Prop :=
  ((c.shards (shardOf hash k)).get k).isSome = true

instance (hash : String → Nat) (c : Cache) (k : String) : Decidable (c.has hash k) := by
  unfold Cache.has; infer_instance

/-- The keys of the linked entries, most recently used first. -/
def Cache.keys (c : Cache) : List String := c.ll.map (fun e => (c.valueOf e).k)

/-- The linked entries as key/value pairs, most recently used first. -/
def Cache.entries (c : Cache) : List (String × String) :=
  c.ll.map (fun e => ((c.valueOf e).k, (c.valueOf e).val))

/-- The two statements shared by `Remove` and the loop of `trim`: unlink
element `e` and delete `key` from shard `i`. -/
def unlink (c : Cache) (i : Fin 128) (key : String) (e : Nat) : Cache :=
  { c with
    ll := listRemove c.ll e
    shards := Function.update c.shards i ((c.shards i).del key) }

/-- Consistency of shards, list and allocation stores: the index/ordering
invariant of quiescent states. -/
structure WF (hash : String → Nat) (c : Cache) : Prop where
  nodup_ll : c.ll.Nodup
  nodup_keys : ∀ i, ((c.shards i).m.map Prod.fst).Nodup
  ll_lt : ∀ e ∈ c.ll, e < c.elems.length
  shard_ok : ∀ i key p, (c.shards i).get key = some p →
    i = shardOf hash key ∧ p < c.heap.length ∧ (c.deref p).k = key ∧ (c.deref p).sh = i ∧
      ∃ e, (c.deref p).listVal = some e ∧ e ∈ c.ll ∧ c.elems.getD e 0 = p
  ll_ok : ∀ e ∈ c.ll, (c.shards (c.valueOf e).sh).get (c.valueOf e).k = some (c.elems.getD e 0) ∧
    (c.valueOf e).listVal = some e
  a_lt : ∀ p ∈ c.a, p < c.heap.length
  count : c.shardEntries = c.ll.length

/-- States a cache reaches from `NewCache` by calls of `Get`, `Add` and
`Remove`, each processed to quiescence, none of which panicked. -/
inductive Reachable (hash : String → Nat) : Cache → Prop
  | new (cp : Nat) (conf : Option CacheConfig) : Reachable hash (NewCache cp conf)
  | get {c : Cache} (k : String) : Reachable hash c → Reachable hash (Get hash c k).2
  | add {c c1 : Cache} (k v : String) :
      Reachable hash c → (Add hash c k v).2 = some c1 → Reachable hash c1
  | remove {c c1 : Cache} (k : String) (b : Bool) :
      Reachable hash c → Remove hash c k = some (b, c1) → Reachable hash c1

/-- The value `Get` finds for key `k`, if any. -/
def Cache.value? (hash : String → Nat) (c : Cache) (k : String) : Option String :=
  ((c.shards (shardOf hash k)).get k).map (fun p => (c.deref p).val)

/-! ## Call sequences -/

/-- A call of the public API. -/
inductive Op where
  | get (k : String)
  | add (k v : String)
  | remove (k : String)
deriving DecidableEq

/-- The result of a call. -/
inductive Res where
  | got (val : String) (ok : Bool)
  | added (ok : Bool)
  | removed (ok : Bool)
deriving DecidableEq

/-- One call processed to quiescence; `none` when a goroutine panicked. -/
def step (hash : String → Nat) (c : Cache) : Op → Option (Res × Cache)
  | Op.get k => some (Res.got (Get hash c k).1.1 (Get hash c k).1.2, (Get hash c k).2)
  | Op.add k v => ((Add hash c k v).2).map (fun c1 => (Res.added (Add hash c k v).1, c1))
  | Op.remove k => (Remove hash c k).map (fun r => (Res.removed r.1, r.2))

/-- A sequence of calls, each processed to quiescence before the next. -/
def run (hash : String → Nat) : Cache → List Op → Option (List Res × Cache)
  | c, [] => some ([], c)
  | c, op :: ops =>
    match step hash c op with
    | none => none
    | some r1 => (run hash r1.2 ops).map (fun r => (r1.1 :: r.1, r.2))

/-- A sequence of `Get` calls: the results in call order and the final state. -/
def getAll (hash : String → Nat) : Cache → List String → List (String × Bool) × Cache
  | c, [] => ([], c)
  | c, k :: ks => ((Get hash c k).1 :: (getAll hash (Get hash c k).2 ks).1,
      (getAll hash (Get hash c k).2 ks).2)

/-- A sequence of `Add` calls: the returned flags in call order and the final
state, `none` when the trimmer panicked on the way. -/
def addAll (hash : String → Nat) : Cache → List (String × String) → Option (List Bool × Cache)
  | c, [] => some ([], c)
  | c, kv :: kvs =>
    match (Add hash c kv.1 kv.2).2 with
    | none => none
    | some c1 =>
      (addAll hash c1 kvs).map (fun r => ((Add hash c kv.1 kv.2).1 :: r.1, r.2))

/-- A sequence of `Remove` calls: the returned flags in call order and the
final state, `none` when a call panicked. -/
def removeAll (hash : String → Nat) : Cache → List String → Option (List Bool × Cache)
  | c, [] => some ([], c)
  | c, k :: ks =>
    match Remove hash c k with
    | none => none
    | some r1 => (removeAll hash r1.2 ks).map (fun r => (r1.1 :: r.1, r.2))

/-! ## `Len()` after insertions of new keys -/

/-- `Len()` after one insertion into a cache whose counter equals `len`: the
trimmer cuts the list back to `cap` once the excess reaches `delThresh - 1`. -/
def nextLen (cap delThresh len : Nat) : Nat :=
  if cap + delThresh ≤ len + 2 then cap else len + 1

/-- `Len()` after `n` further insertions of new keys into a cache whose counter
equals its length `len`. -/
def lenAfter (cap delThresh : Nat) : Nat → Nat → Nat
  | 0, len => len
  | n + 1, len => lenAfter cap delThresh n (nextLen cap delThresh len)

/-- Size of the trimmer's batch: it fires on every `max (delThresh - 1) 1`-th
insertion above capacity. -/
def batch (delThresh : Nat) : Nat := max (delThresh - 1) 1

/-- Closed form of `Len()` after `n` insertions of new keys into a fresh cache. -/
def lenClosed (cap delThresh n : Nat) : Nat :=
  if n < cap + batch delThresh then n else cap + (n - cap) % batch delThresh

/-! ## Reference: a strict LRU cache

The reference follows the wording of the specification: the entries are kept
most recently used first, a `Get` hit moves its entry to the front, an `Add`
of a present key changes nothing, an `Add` that takes the size above the
capacity evicts the least recently used entry at once. -/

/-- `Get` of the reference cache. -/
def refGet (l : List (String × String)) (k : String) :
    (String × Bool) × List (String × String) :=
  match l.lookup k with
  | none => (("", false), l)
  | some v => ((v, true), (k, v) :: l.filter (fun q => q.1 != k))

/-- `Add` of the reference cache of capacity `cap`. -/
def refAdd (cap : Nat) (l : List (String × String)) (k v : String) :
    Bool × List (String × String) :=
  match l.lookup k with
  | some _ => (false, l)
  | none => (true, if cap < l.length + 1 then ((k, v) :: l).dropLast else (k, v) :: l)

/-- `Remove` of the reference cache. -/
def refRemove (l : List (String × String)) (k : String) : Bool × List (String × String) :=
  ((l.lookup k).isSome, l.filter (fun q => q.1 != k))

/-- One call on the reference cache. -/
def refStep (cap : Nat) (l : List (String × String)) : Op → Res × List (String × String)
  | Op.get k => (Res.got (refGet l k).1.1 (refGet l k).1.2, (refGet l k).2)
  | Op.add k v => (Res.added (refAdd cap l k v).1, (refAdd cap l k v).2)
  | Op.remove k => (Res.removed (refRemove l k).1, (refRemove l k).2)

/-- A sequence of calls on the reference cache. -/
def refRun (cap : Nat) : List (String × String) → List Op → List Res × List (String × String)
  | l, [] => ([], l)
  | l, op :: ops =>
    ((refStep cap l op).1 :: (refRun cap (refStep cap l op).2 ops).1,
      (refRun cap (refStep cap l op).2 ops).2)

/-- The call is a `Get` or an `Add`. -/
def Op.isGetOrAdd : Op → Bool
  | Op.get _ => true
  | Op.add _ _ => true
  | Op.remove _ => false

/-! ## The counter of the trimmer along a run -/

/-- The number of `Remove` calls among the results that returned true. -/
def removes (rs : List Res) : Nat := rs.count (Res.removed true)

/-- The bound the counter of the trimmer obeys before it wraps:
`cap + max(delThresh - 2, 0)` while `int(delThresh) - 1` is not negative, else
`cap`. -/
def counterBound (cap delThresh : Nat) : Nat :=
  if delThresh ≤ 9223372036854775808 then cap + (delThresh - 2) else cap

/-! ## Concrete instances -/

/-- A sample hash for the concrete instances: the length of the key. -/
def lenHash : String → Nat := fun s => s.length

/-- The state after `Add("a", "1")` on `NewCache(10, nil)`. -/
def demoOne : Cache :=
  ((Add lenHash (NewCache 10 none) "a" "1").2).getD (NewCache 10 none)

/-- For the concrete instances: `n` pairwise distinct keys `"a"`, `"aa"`, ...,
each with the value `"v"`. -/
def sampleKeys (n : Nat) : List (String × String) :=
  (List.range n).map (fun i => (String.mk (List.replicate (i + 1) 'a'), "v"))

/-- For the concrete instances: capacity 10, `Add` of `a` to `j`, a `Get("a")`
and then `Add("k")`. -/
def scenarioOps : List Op :=
  [Op.add "a" "a", Op.add "b" "b", Op.add "c" "c", Op.add "d" "d", Op.add "e" "e",
    Op.add "f" "f", Op.add "g" "g", Op.add "h" "h", Op.add "i" "i", Op.add "j" "j",
    Op.get "a", Op.add "k" "k"]

/-- The state after `Add("a", "1")` and `Add("b", "2")` on
`NewCache(2, {GetThresh: 1, DelThresh: 1})`. -/
def demoTwo : Cache :=
  ((Add lenHash (((Add lenHash (NewCache 2 (some ⟨1, 1⟩)) "a" "1").2).getD
    (NewCache 2 none)) "b" "2").2).getD (NewCache 2 none)

/-- The state `Add("c", "3")` reaches on `demoTwo` before it notifies the
trimmer. -/
def demoPending : Cache := addEntry lenHash demoTwo "c" "3"

/-- For the concrete instances: calls of all three kinds on `NewCache(10, nil)`,
one of them a successful `Remove`. -/
def demoOps : List Op :=
  [Op.add "a" "1", Op.add "b" "2", Op.remove "a", Op.get "b", Op.add "c" "3"]

/-- The results of `demoOps` on `NewCache(10, nil)` and the state they leave. -/
def demoRun : List Res × Cache :=
  (run lenHash (NewCache 10 none) demoOps).getD ([], NewCache 10 none)

/-- The results and the state of three insertions into
`NewCache(2, {GetThresh: 1, DelThresh: 3})`. -/
def demoFill : List Res × Cache :=
  (run lenHash (NewCache 2 (some ⟨1, 3⟩))
    [Op.add "a" "1", Op.add "b" "2", Op.add "c" "3"]).getD ([], NewCache 2 none)

/-! ## A flush as a function on lists -/

/-- The ordering handles of the buffered values, in arrival order, without the
values whose `listVal` is nil. -/
def Cache.handles (c : Cache) (a : List Nat) : List Nat :=
  a.filterMap (fun i => (c.deref i).listVal)

/-- The elements of `es` that are linked in `l`, each once, ordered by their
last occurrence in `es`, the latest first. -/
def promoted (l es : List Nat) : List Nat :=
  ((es.filter (fun e => decide (e ∈ l))).dedup).reverse

/-! ## Properties -/

/-! ### Shard maps -/

theorem lookup_cons_eq {β : Type} (k : String) (b : β) (m : List (String × β)) :
    List.lookup k ((k, b) :: m) = some b := by
  simp [List.lookup_cons]

theorem lookup_cons_ne {β : Type} {k a : String} (h : k ≠ a) (b : β) (m : List (String × β)) :
    List.lookup k ((a, b) :: m) = List.lookup k m := by
  have : (k == a) = false := by simpa using h
  simp [List.lookup_cons, this]

theorem shard_get_del (s : shard) (k k' : String) :
    (s.del k).get k' = if k' = k then none else s.get k' := by
  cases s with | mk m =>
  simp only [shard.del, shard.get]
  induction m with
  | nil => simp
  | cons q m ih =>
    obtain ⟨a, b⟩ := q
    by_cases hak : a = k
    · subst hak
      by_cases hk : k' = a
      · subst hk; simp [List.filter_cons, ih]
      · simp [List.filter_cons, ih, hk, lookup_cons_ne hk]
    · by_cases hk : k' = k
      · subst hk
        simp [List.filter_cons, hak, ih, lookup_cons_ne (Ne.symm hak)]
      · by_cases hka : k' = a
        · subst hka; simp [List.filter_cons, hak, lookup_cons_eq]
        · simp [List.filter_cons, hak, ih, hk, lookup_cons_ne hka]

theorem shard_get_set (s : shard) (k k' : String) (p : Nat) :
    (s.set k p).get k' = if k' = k then some p else s.get k' := by
  have h := shard_get_del s k k'
  simp only [shard.get] at h
  by_cases hk : k' = k
  · subst hk; simp [shard.set, shard.get, lookup_cons_eq]
  · simp [shard.set, shard.get, lookup_cons_ne hk, hk, h]

/-- keys of a shard -/
theorem shard_get_eq_none_iff (s : shard) (k : String) :
    s.get k = none ↔ ∀ q ∈ s.m, q.1 ≠ k := by
  cases s with | mk m =>
  simp only [shard.get]
  induction m with
  | nil => simp
  | cons q m ih =>
    obtain ⟨a, b⟩ := q
    by_cases hka : k = a
    · subst hka; simp [lookup_cons_eq]
    · simp [lookup_cons_ne hka, ih, Ne.symm hka]

theorem shard_del_of_get_none (s : shard) (k : String) (h : s.get k = none) : s.del k = s := by
  rw [shard_get_eq_none_iff] at h
  cases s with | mk m =>
  simp only [shard.del, shard.mk.injEq, List.filter_eq_self]
  intro q hq
  simpa using h q hq

theorem shard_length_del (s : shard) (k : String) (p : Nat) (hnd : (s.m.map Prod.fst).Nodup)
    (h : s.get k = some p) : (s.del k).m.length + 1 = s.m.length := by
  cases s with | mk m =>
  simp only [shard.del, shard.get] at *
  induction m with
  | nil => simp at h
  | cons q m ih =>
    obtain ⟨a, b⟩ := q
    simp only [List.map_cons, List.nodup_cons] at hnd
    by_cases hka : k = a
    · subst hka
      have : List.filter (fun q => q.1 != k) m = m := by
        rw [List.filter_eq_self]
        intro q hq
        have : q.1 ≠ k := fun h => hnd.1 (h ▸ List.mem_map_of_mem _ hq)
        simpa using this
      simp [List.filter_cons, this]
    · rw [lookup_cons_ne hka] at h
      have := ih hnd.2 h
      simp [List.filter_cons, Ne.symm hka]
      omega

theorem shard_nodup_del (s : shard) (k : String) (hnd : (s.m.map Prod.fst).Nodup) :
    ((s.del k).m.map Prod.fst).Nodup := by
  simp only [shard.del]
  exact (List.filter_sublist _).map _ |>.nodup hnd

theorem shard_nodup_set (s : shard) (k : String) (p : Nat) (hnd : (s.m.map Prod.fst).Nodup) :
    ((s.set k p).m.map Prod.fst).Nodup := by
  simp only [shard.set, List.map_cons, List.nodup_cons]
  refine ⟨?_, shard_nodup_del s k hnd⟩
  simp [shard.del]
/-! ### The coalescer only permutes the list -/

theorem moveToFront_perm (l : List Nat) (e : Nat) : (MoveToFront l e).Perm l := by
  unfold MoveToFront
  split
  · next h => exact (List.perm_cons_erase h.1).symm
  · exact List.Perm.refl _

theorem promote_frame (c : Cache) (i : Nat) :
    (promote c i).shards = c.shards ∧ (promote c i).heap = c.heap ∧
    (promote c i).elems = c.elems ∧ (promote c i).cap = c.cap ∧
    (promote c i).getThresh = c.getThresh ∧ (promote c i).delThresh = c.delThresh ∧
    (promote c i).a = c.a ∧ (promote c i).listLen = c.listLen ∧
    (promote c i).ll.Perm c.ll := by
  unfold promote
  cases (c.deref i).listVal with
  | none => simp
  | some e => simpa using moveToFront_perm _ _

theorem flush_frame (a : List Nat) (c : Cache) :
    (flush c a).shards = c.shards ∧ (flush c a).heap = c.heap ∧ (flush c a).elems = c.elems ∧
    (flush c a).cap = c.cap ∧ (flush c a).getThresh = c.getThresh ∧
    (flush c a).delThresh = c.delThresh ∧ (flush c a).a = c.a ∧
    (flush c a).listLen = c.listLen ∧ (flush c a).ll.Perm c.ll := by
  induction a generalizing c with
  | nil => simp [flush]
  | cons i a ih =>
    have hstep : flush c (i :: a) = flush (promote c i) a := rfl
    rw [hstep]
    obtain ⟨h1, h2, h3, h4, h5, h6, h7, h8, h9⟩ := ih (promote c i)
    obtain ⟨g1, g2, g3, g4, g5, g6, g7, g8, g9⟩ := promote_frame c i
    exact ⟨h1.trans g1, h2.trans g2, h3.trans g3, h4.trans g4, h5.trans g5, h6.trans g6,
      h7.trans g7, h8.trans g8, h9.trans g9⟩

/-- Well-formedness only looks at the list through membership. -/
theorem WF.of_perm {hash : String → Nat} {c c' : Cache} (h : WF hash c)
    (hs : c'.shards = c.shards) (hh : c'.heap = c.heap) (he : c'.elems = c.elems)
    (hl : c'.ll.Perm c.ll) (ha : ∀ p ∈ c'.a, p < c.heap.length) : WF hash c' := by
  have hd : ∀ p, c'.deref p = c.deref p := fun p => by simp [Cache.deref, hh]
  have hv : ∀ e, c'.valueOf e = c.valueOf e := fun e => by simp [Cache.valueOf, hd, he]
  refine ⟨hl.nodup_iff.mpr h.nodup_ll, ?_, ?_, ?_, ?_, ?_, ?_⟩
  · intro i; rw [hs]; exact h.nodup_keys i
  · intro e hm; rw [he]; exact h.ll_lt e (hl.mem_iff.mp hm)
  · intro i key p hp
    rw [hs] at hp
    obtain ⟨h1, h2, h3, h4, e, h5, h6, h7⟩ := h.shard_ok i key p hp
    refine ⟨h1, by rw [hh]; exact h2, by rw [hd]; exact h3, by rw [hd]; exact h4, e,
      by rw [hd]; exact h5, hl.mem_iff.mpr h6, by rw [he]; exact h7⟩
  · intro e hm
    have := h.ll_ok e (hl.mem_iff.mp hm)
    rw [hv, hs, he]; exact this
  · intro p hp; rw [hh]; exact ha p hp
  · have : c'.shardEntries = c.shardEntries := by simp [Cache.shardEntries, hs]
    rw [this, h.count, hl.length_eq]

/-! ### Insertion keeps the invariant -/

theorem sum_update_length (f : Fin 128 → shard) (i : Fin 128) (s : shard) :
    (∑ j, ((Function.update f i s) j).m.length) + (f i).m.length =
      (∑ j, (f j).m.length) + s.m.length := by
  rw [← Finset.add_sum_erase Finset.univ _ (Finset.mem_univ i),
    ← Finset.add_sum_erase Finset.univ (fun j => (f j).m.length) (Finset.mem_univ i)]
  have h : ∑ x in Finset.univ.erase i, ((Function.update f i s) x).m.length =
      ∑ x in Finset.univ.erase i, (f x).m.length :=
    Finset.sum_congr rfl (fun x hx => by rw [Function.update_noteq (Finset.ne_of_mem_erase hx)])
  rw [h, Function.update_same]
  omega

theorem set_append_length (l : List Value) (x y : Value) :
    (l ++ [x]).set l.length y = l ++ [y] := by
  induction l with
  | nil => rfl
  | cons a l ih => simp [List.set, ih]

theorem addEntry_eq (hash : String → Nat) (c : Cache) (k v : String) :
    addEntry hash c k v =
      { c with
        heap := c.heap ++ [⟨k, v, some c.elems.length, shardOf hash k⟩]
        elems := c.elems ++ [c.heap.length]
        ll := c.elems.length :: c.ll
        shards := Function.update c.shards (shardOf hash k)
          ((c.shards (shardOf hash k)).set k c.heap.length) } := by
  simp [addEntry, PushFront, setList, Cache.deref, set_append_length]

theorem getD_append_lt {α : Type} (l : List α) (x d : α) (i : Nat) (h : i < l.length) :
    (l ++ [x]).getD i d = l.getD i d := by
  simp [List.getD, List.getElem?_append_left h]

theorem getD_append_length {α : Type} (l : List α) (x d : α) :
    (l ++ [x]).getD l.length d = x := by
  simp [List.getD]

theorem WF_addEntry {hash : String → Nat} {c : Cache} (h : WF hash c) (k v : String)
    (hk : (c.shards (shardOf hash k)).get k = none) : WF hash (addEntry hash c k v) := by
  rw [addEntry_eq]
  have hfresh : c.elems.length ∉ c.ll := fun hm => Nat.lt_irrefl _ (h.ll_lt _ hm)
  have hd : ∀ p, p < c.heap.length → ∀ x : Value, (c.heap ++ [x]).getD p default = c.deref p :=
    fun p hp x => getD_append_lt _ _ _ _ hp
  have hshard : ∀ i key, (i, key) ≠ (shardOf hash k, k) →
      (Function.update c.shards (shardOf hash k)
        ((c.shards (shardOf hash k)).set k c.heap.length) i).get key = (c.shards i).get key := by
    intro i key hne
    by_cases hi : i = shardOf hash k
    · subst hi
      have : key ≠ k := fun hk => hne (by rw [hk])
      rw [Function.update_same, shard_get_set, if_neg this]
    · rw [Function.update_noteq hi]
  refine ⟨?_, ?_, ?_, ?_, ?_, ?_, ?_⟩
  · exact List.nodup_cons.mpr ⟨hfresh, h.nodup_ll⟩
  · intro i
    by_cases hi : i = shardOf hash k
    · subst hi
      simp only [Function.update_same]
      exact shard_nodup_set _ _ _ (h.nodup_keys _)
    · simp only [Function.update_noteq hi]
      exact h.nodup_keys i
  · intro e he
    simp only [List.mem_cons, List.length_append, List.length_singleton] at he ⊢
    rcases he with rfl | he
    · omega
    · have := h.ll_lt e he; omega
  · intro i key p hp
    simp only [Cache.deref, List.length_append, List.length_singleton, List.mem_cons] at hp ⊢
    by_cases hik : (i, key) = (shardOf hash k, k)
    · obtain ⟨rfl, rfl⟩ := Prod.mk.inj hik
      rw [Function.update_same, shard_get_set, if_pos rfl] at hp
      obtain rfl := Option.some.inj hp
      rw [getD_append_length]
      refine ⟨rfl, by omega, rfl, rfl, c.elems.length, rfl, Or.inl rfl, ?_⟩
      exact getD_append_length _ _ _
    · rw [hshard i key hik] at hp
      obtain ⟨h1, h2, h3, h4, e, h5, h6, h7⟩ := h.shard_ok i key p hp
      rw [hd p h2]
      refine ⟨h1, by omega, h3, h4, e, h5, Or.inr h6, ?_⟩
      rw [getD_append_lt _ _ _ _ (h.ll_lt e h6)]; exact h7
  · intro e he
    simp only [List.mem_cons] at he
    simp only [Cache.valueOf, Cache.deref]
    rcases he with rfl | he
    · rw [getD_append_length, getD_append_length]
      simp only [Function.update_same, shard_get_set, if_pos]
      exact ⟨trivial, trivial⟩
    · have hlt := h.ll_lt e he
      obtain ⟨g1, g2⟩ := h.ll_ok e he
      have hp := (h.shard_ok _ _ _ g1).2.1
      rw [getD_append_lt _ _ _ _ hlt, hd _ hp]
      refine ⟨?_, g2⟩
      rw [hshard]
      · exact g1
      · intro heq
        obtain ⟨h1, h2⟩ := Prod.mk.inj heq
        simp only [Cache.valueOf] at g1
        rw [h1, h2, hk] at g1
        exact Option.noConfusion g1
  · intro p hp
    have := h.a_lt p hp
    simp only [List.length_append, List.length_singleton]; omega
  · have := sum_update_length c.shards (shardOf hash k)
      ((c.shards (shardOf hash k)).set k c.heap.length)
    have hc := h.count
    simp only [Cache.shardEntries] at hc ⊢
    simp only [shard.set, shard_del_of_get_none _ _ hk, List.length_cons] at this ⊢
    omega

/-! ### Unlinking an entry keeps the invariant -/

theorem unlink_get (c : Cache) (i : Fin 128) (key : String) (e : Nat) (j : Fin 128)
    (key' : String) :
    ((unlink c i key e).shards j).get key' =
      if (j, key') = (i, key) then none else (c.shards j).get key' := by
  simp only [unlink]
  by_cases hj : j = i
  · subst hj
    rw [Function.update_same, shard_get_del]
    by_cases hk : key' = key
    · simp [hk]
    · simp [hk]
  · rw [Function.update_noteq hj]
    simp [hj]

theorem WF_unlink {hash : String → Nat} {c : Cache} (h : WF hash c) {i : Fin 128}
    {key : String} {p e : Nat} (hp : (c.shards i).get key = some p)
    (he : (c.deref p).listVal = some e) : WF hash (unlink c i key e) := by
  obtain ⟨_, _, hpk, hpi, e0, he0, hmem, hel⟩ := h.shard_ok i key p hp
  obtain rfl : e0 = e := Option.some.inj (he0.symm.trans he)
  have hd : ∀ q, (unlink c i key e0).deref q = c.deref q := fun q => rfl
  have hv : ∀ x, (unlink c i key e0).valueOf x = c.valueOf x := fun x => rfl
  have hll : (unlink c i key e0).ll = c.ll.erase e0 := rfl
  refine ⟨?_, ?_, ?_, ?_, ?_, ?_, ?_⟩
  · rw [hll]; exact h.nodup_ll.erase _
  · intro j
    simp only [unlink]
    by_cases hj : j = i
    · subst hj; rw [Function.update_same]; exact shard_nodup_del _ _ (h.nodup_keys _)
    · rw [Function.update_noteq hj]; exact h.nodup_keys j
  · intro x hx
    rw [hll] at hx
    exact h.ll_lt x (List.mem_of_mem_erase hx)
  · intro j key' q hq
    rw [unlink_get] at hq
    split at hq
    · exact Option.noConfusion hq
    · next hne =>
      obtain ⟨h1, h2, h3, h4, x, h5, h6, h7⟩ := h.shard_ok j key' q hq
      refine ⟨h1, h2, h3, h4, x, h5, ?_, h7⟩
      rw [hll]
      refine (List.mem_erase_of_ne ?_).mpr h6
      rintro rfl
      apply hne
      have hqp : q = p := h7.symm.trans hel
      subst hqp
      rw [← h3, ← h4, hpk, hpi]
  · intro x hx
    rw [hll] at hx
    have hxm := List.mem_of_mem_erase hx
    have hxe : x ≠ e0 := fun hxe => by
      subst hxe
      exact (List.Nodup.not_mem_erase h.nodup_ll) hx
    obtain ⟨g1, g2⟩ := h.ll_ok x hxm
    rw [hv]
    refine ⟨?_, g2⟩
    rw [unlink_get, if_neg]
    · exact g1
    · intro heq
      obtain ⟨h1, h2⟩ := Prod.mk.inj heq
      rw [h1, h2, hp] at g1
      have hqp : p = c.elems.getD x 0 := Option.some.inj g1
      apply hxe
      have : (c.valueOf x).listVal = some e0 := by
        simp only [Cache.valueOf, ← hqp]; exact he
      exact Option.some.inj (g2.symm.trans this)
  · exact h.a_lt
  · have := sum_update_length c.shards i ((c.shards i).del key)
    have hc := h.count
    have hl := shard_length_del _ _ _ (h.nodup_keys i) hp
    have hle : (c.ll.erase e0).length + 1 = c.ll.length := by
      rw [List.length_erase_of_mem hmem]
      have := List.length_pos_of_mem hmem
      omega
    simp only [Cache.shardEntries] at hc ⊢
    simp only [unlink, listRemove] at this ⊢
    omega

/-! ### The trimmer -/

theorem wrapInt_of_range (x : Int) (h1 : -9223372036854775808 ≤ x)
    (h2 : x < 9223372036854775808) : wrapInt x = x := by
  unfold wrapInt; omega

theorem toInt_of_lt (u : Nat) (h : u < 9223372036854775808) : toInt u = (u : Int) := by
  unfold toInt; exact wrapInt_of_range _ (by omega) (by omega)

theorem erase_concat_self (l : List Nat) (e : Nat) (h : e ∉ l) : (l ++ [e]).erase e = l := by
  rw [List.erase_append_right _ h]; simp

theorem trimLoop_succ (n : Nat) (c : Cache) (l : List Nat) (e : Nat) (h : c.ll = l ++ [e]) :
    trimLoop (n + 1) c = trimLoop n (unlink c (c.valueOf e).sh (c.valueOf e).k e) := by
  simp [trimLoop, Back, h, List.getLast?_concat, unlink]

theorem trimLoop_nil (n : Nat) (c : Cache) (h : c.ll = []) : trimLoop (n + 1) c = none := by
  simp [trimLoop, Back, h]

theorem trimLoop_ok {hash : String → Nat} : ∀ (n : Nat) (c : Cache), WF hash c →
    n ≤ c.ll.length →
    ∃ c1, trimLoop n c = some c1 ∧ WF hash c1 ∧ c1.ll = c.ll.take (c.ll.length - n) ∧
      c1.heap = c.heap ∧ c1.elems = c.elems ∧ c1.cap = c.cap ∧ c1.getThresh = c.getThresh ∧
      c1.delThresh = c.delThresh ∧ c1.a = c.a ∧ c1.listLen = c.listLen ∧
      (∀ j key p, (c1.shards j).get key = some p → (c.shards j).get key = some p) := by
  intro n
  induction n with
  | zero =>
    intro c h _
    exact ⟨c, rfl, h, by simp, rfl, rfl, rfl, rfl, rfl, rfl, rfl, fun _ _ _ hp => hp⟩
  | succ n ih =>
    intro c h hn
    have hne : c.ll ≠ [] := by
      intro h0; rw [h0] at hn; simp at hn
    obtain ⟨e, he⟩ : ∃ e, c.ll.getLast? = some e := by
      cases hl : c.ll.getLast? with
      | none => exact absurd (List.getLast?_eq_none_iff.mp hl) hne
      | some e => exact ⟨e, rfl⟩
    obtain ⟨l, hl⟩ := List.getLast?_eq_some_iff.mp he
    have hmem : e ∈ c.ll := by rw [hl]; simp
    have hnot : e ∉ l := by
      have := h.nodup_ll
      rw [hl] at this
      have := (List.nodup_append.mp this).2.2
      intro hm
      exact this hm (List.mem_singleton_self e)
    obtain ⟨g1, g2⟩ := h.ll_ok e hmem
    have hwf := WF_unlink h g1 g2
    have hll : (unlink c (c.valueOf e).sh (c.valueOf e).k e).ll = l := by
      simp only [unlink, listRemove, hl]; exact erase_concat_self l e hnot
    have hlen : c.ll.length = l.length + 1 := by rw [hl]; simp
    obtain ⟨c1, h1, h2, h3, h4, h5, h6, h7, h8, h9, h10, h11⟩ := ih _ hwf (by rw [hll]; omega)
    refine ⟨c1, ?_, h2, ?_, h4, h5, h6, h7, h8, h9, h10, ?_⟩
    · rw [trimLoop_succ n c l e hl]; exact h1
    · rw [h3, hll, hl]
      have : (l ++ [e]).length - (n + 1) = l.length - n := by simp
      rw [this, List.take_append_of_le_length (by omega)]
    · intro j key p hp
      have := h11 j key p hp
      rw [unlink_get] at this
      split at this
      · exact Option.noConfusion this
      · exact this

theorem trimLoop_fail : ∀ (n : Nat) (c : Cache) (hash : String → Nat), WF hash c →
    c.ll.length < n → trimLoop n c = none := by
  intro n
  induction n with
  | zero => intro c _ _ hn; simp at hn
  | succ n ih =>
    intro c hash h hn
    cases hl : c.ll.getLast? with
    | none => exact trimLoop_nil n c (List.getLast?_eq_none_iff.mp hl)
    | some e =>
      obtain ⟨l, hl⟩ := List.getLast?_eq_some_iff.mp hl
      have hmem : e ∈ c.ll := by rw [hl]; simp
      have hnot : e ∉ l := by
        have := h.nodup_ll
        rw [hl] at this
        have := (List.nodup_append.mp this).2.2
        intro hm
        exact this hm (List.mem_singleton_self e)
      obtain ⟨g1, g2⟩ := h.ll_ok e hmem
      have hwf := WF_unlink h g1 g2
      have hll : (unlink c (c.valueOf e).sh (c.valueOf e).k e).ll = l := by
        simp only [unlink, listRemove, hl]; exact erase_concat_self l e hnot
      have hlen : c.ll.length = l.length + 1 := by rw [hl]; simp
      rw [trimLoop_succ n c l e hl]
      exact ih _ hash hwf (by rw [hll]; omega)

theorem WF_setListLen {hash : String → Nat} {c : Cache} (h : WF hash c) (x : Int) :
    WF hash { c with listLen := x } :=
  WF.of_perm h rfl rfl rfl (List.Perm.refl _) h.a_lt

theorem trimStep_ok {hash : String → Nat} {c : Cache} (h : WF hash c)
    (hn : trimAmount c ≤ c.ll.length) :
    ∃ c1, trimStep c = some c1 ∧ WF hash c1 ∧ c1.ll = c.ll.take (c.ll.length - trimAmount c) ∧
      c1.heap = c.heap ∧ c1.elems = c.elems ∧ c1.cap = c.cap ∧ c1.getThresh = c.getThresh ∧
      c1.delThresh = c.delThresh ∧ c1.a = c.a ∧
      c1.listLen = (if trimFires c then wrapInt (trimCount c - trimExcess c) else trimCount c) ∧
      (∀ j key p, (c1.shards j).get key = some p → (c.shards j).get key = some p) := by
  unfold trimAmount at hn
  unfold trimStep trimAmount
  by_cases hf : trimFires c
  · simp only [hf, if_true] at hn ⊢
    obtain ⟨c1, h1, h2, h3, h4, h5, h6, h7, h8, h9, h10, h11⟩ :=
      trimLoop_ok (trimExcess c).toNat { c with listLen := trimCount c }
        (WF_setListLen h _) hn
    refine ⟨{ c1 with listLen := wrapInt (c1.listLen - trimExcess c) }, ?_,
      WF_setListLen h2 _, h3, h4, h5, h6, h7, h8, h9, ?_, h11⟩
    · rw [h1]; rfl
    · simp only [h10]
  · simp only [hf, if_false]
    exact ⟨_, rfl, WF_setListLen h _, by simp, rfl, rfl, rfl, rfl, rfl, rfl, rfl,
      fun _ _ _ hp => hp⟩

theorem trimStep_fail {hash : String → Nat} {c : Cache} (h : WF hash c)
    (hn : c.ll.length < trimAmount c) : trimStep c = none := by
  unfold trimAmount at hn
  unfold trimStep
  by_cases hf : trimFires c
  · simp only [hf, if_true] at hn ⊢
    rw [trimLoop_fail _ { c with listLen := trimCount c } hash (WF_setListLen h _) hn]; rfl
  · simp [hf] at hn

theorem WF_trimStep {hash : String → Nat} {c c1 : Cache} (h : WF hash c)
    (hs : trimStep c = some c1) : WF hash c1 := by
  by_cases hn : trimAmount c ≤ c.ll.length
  · obtain ⟨c2, h1, h2, _⟩ := trimStep_ok h hn
    rw [h1] at hs
    exact Option.some.inj hs ▸ h2
  · rw [trimStep_fail h (by omega)] at hs
    exact Option.noConfusion hs

/-! ### Every reachable state satisfies the invariant -/

theorem WF_NewCache (hash : String → Nat) (cp : Nat) (conf : Option CacheConfig) :
    WF hash (NewCache cp conf) := by
  refine ⟨?_, ?_, ?_, ?_, ?_, ?_, ?_⟩ <;> simp [NewCache, shard.get, Cache.shardEntries]

theorem shedGetStep_frame (c : Cache) (v : Nat) :
    (shedGetStep c v).shards = c.shards ∧ (shedGetStep c v).heap = c.heap ∧
    (shedGetStep c v).elems = c.elems ∧ (shedGetStep c v).cap = c.cap ∧
    (shedGetStep c v).getThresh = c.getThresh ∧ (shedGetStep c v).delThresh = c.delThresh ∧
    (shedGetStep c v).listLen = c.listLen ∧ (shedGetStep c v).ll.Perm c.ll := by
  unfold shedGetStep
  obtain ⟨h1, h2, h3, h4, h5, h6, _, h8, h9⟩ := flush_frame (c.a ++ [v]) c
  simp only
  split
  · exact ⟨h1, h2, h3, h4, h5, h6, h8, h9⟩
  · exact ⟨rfl, rfl, rfl, rfl, rfl, rfl, rfl, List.Perm.refl _⟩

theorem shedGetStep_a (c : Cache) (v : Nat) :
    (shedGetStep c v).a = if (c.a ++ [v]).length ≥ c.getThresh then [] else c.a ++ [v] := by
  unfold shedGetStep
  simp only
  split <;> rfl

theorem WF_shedGetStep {hash : String → Nat} {c : Cache} (h : WF hash c) (v : Nat)
    (hv : v < c.heap.length) : WF hash (shedGetStep c v) := by
  obtain ⟨h1, h2, h3, _, _, _, _, h9⟩ := shedGetStep_frame c v
  refine WF.of_perm h h1 h2 h3 h9 ?_
  rw [shedGetStep_a]
  split
  · simp
  · intro p hp
    rcases List.mem_append.mp hp with hp | hp
    · exact h.a_lt p hp
    · rw [List.mem_singleton.mp hp]; exact hv

theorem WF_Get {hash : String → Nat} {c : Cache} (h : WF hash c) (k : String) :
    WF hash (Get hash c k).2 := by
  unfold Get
  cases hg : (c.shards (shardOf hash k)).get k with
  | none => exact h
  | some v => exact WF_shedGetStep h v (h.shard_ok _ _ _ hg).2.1

theorem WF_Add {hash : String → Nat} {c c1 : Cache} (h : WF hash c) (k v : String)
    (hs : (Add hash c k v).2 = some c1) : WF hash c1 := by
  unfold Add at hs
  cases hg : (c.shards (shardOf hash k)).get k with
  | none =>
    rw [hg] at hs
    exact WF_trimStep (WF_addEntry h k v hg) hs
  | some p =>
    rw [hg] at hs
    exact Option.some.inj hs ▸ h

theorem Remove_present {hash : String → Nat} {c : Cache} (h : WF hash c) {k : String} {p : Nat}
    (hp : (c.shards (shardOf hash k)).get k = some p) :
    ∃ e, (c.deref p).listVal = some e ∧ e ∈ c.ll ∧
      Remove hash c k = some (true, unlink c (shardOf hash k) k e) := by
  obtain ⟨_, _, h3, _, e, h5, h6, _⟩ := h.shard_ok _ _ _ hp
  refine ⟨e, h5, h6, ?_⟩
  simp only [Remove, hp, h5, h3, unlink]

theorem Remove_absent (hash : String → Nat) (c : Cache) (k : String)
    (hp : (c.shards (shardOf hash k)).get k = none) : Remove hash c k = some (false, c) := by
  simp only [Remove, hp]

theorem WF_Remove {hash : String → Nat} {c c1 : Cache} (h : WF hash c) (k : String) (b : Bool)
    (hs : Remove hash c k = some (b, c1)) : WF hash c1 := by
  cases hg : (c.shards (shardOf hash k)).get k with
  | none =>
    rw [Remove_absent hash c k hg] at hs
    obtain ⟨_, rfl⟩ := Prod.mk.inj (Option.some.inj hs)
    exact h
  | some p =>
    obtain ⟨e, h1, _, h3⟩ := Remove_present h hg
    rw [h3] at hs
    obtain ⟨_, rfl⟩ := Prod.mk.inj (Option.some.inj hs)
    exact WF_unlink h hg h1

theorem Reachable.wf {hash : String → Nat} {c : Cache} (h : Reachable hash c) : WF hash c := by
  induction h with
  | new cp conf => exact WF_NewCache hash cp conf
  | get k _ ih => exact WF_Get ih k
  | add k v _ hs ih => exact WF_Add ih k v hs
  | remove k b _ hs ih => exact WF_Remove ih k b hs

/-! ### C1 and C6: calls that return early -/

/-- The sample state `demoOne` is reachable. -/
theorem demoOne_reachable : Reachable lenHash demoOne :=
  Reachable.add "a" "1" (Reachable.new 10 none) (by rfl)

/-- C1: `Add(k, v)` on a key that is already present returns false and leaves
the whole state as it was: shards, stored values, list, buffer and counter. -/
theorem add_present_unchanged (hash : String → Nat) (c : Cache) (k v : String)
    (h : c.has hash k) : Add hash c k v = (false, some c) := by
  unfold Cache.has at h
  unfold Add
  cases hg : (c.shards (shardOf hash k)).get k with
  | none => rw [hg] at h; exact absurd h (by simp)
  | some p => rfl

/-- Instance of C1: a second `Add("a", _)` after `Add("a", "1")` on a fresh cache. -/
theorem add_present_unchanged_witness :
    demoOne.has lenHash "a" ∧ Add lenHash demoOne "a" "2" = (false, some demoOne) :=
  ⟨by decide, add_present_unchanged lenHash demoOne "a" "2" (by decide)⟩

/-- C6: `Remove(k)` on a key that is not present returns false and leaves the
whole state as it was: `Len()`, the list order and every shard. -/
theorem remove_absent_unchanged (hash : String → Nat) (c : Cache) (k : String)
    (h : ¬ c.has hash k) : Remove hash c k = some (false, c) := by
  unfold Cache.has at h
  apply Remove_absent
  cases hg : (c.shards (shardOf hash k)).get k with
  | none => rfl
  | some p => rw [hg] at h; exact absurd rfl h

/-- Instance of C6: `Remove("b")` on a cache that holds only `"a"`. -/
theorem remove_absent_unchanged_witness :
    ¬ demoOne.has lenHash "b" ∧ Remove lenHash demoOne "b" = some (false, demoOne) :=
  ⟨by decide, remove_absent_unchanged lenHash demoOne "b" (by decide)⟩

/-! ### C4: reads -/

theorem Get_fst (hash : String → Nat) (c : Cache) (k : String) :
    (Get hash c k).1 = ((c.value? hash k).getD "", (c.value? hash k).isSome) := by
  unfold Get Cache.value?
  cases (c.shards (shardOf hash k)).get k <;> rfl

theorem Get_frame (hash : String → Nat) (c : Cache) (k : String) :
    (Get hash c k).2.shards = c.shards ∧ (Get hash c k).2.heap = c.heap ∧
    (Get hash c k).2.elems = c.elems ∧ (Get hash c k).2.cap = c.cap ∧
    (Get hash c k).2.getThresh = c.getThresh ∧ (Get hash c k).2.delThresh = c.delThresh ∧
    (Get hash c k).2.listLen = c.listLen ∧ (Get hash c k).2.ll.Perm c.ll := by
  unfold Get
  cases (c.shards (shardOf hash k)).get k with
  | none => exact ⟨rfl, rfl, rfl, rfl, rfl, rfl, rfl, List.Perm.refl _⟩
  | some v => exact shedGetStep_frame c v

theorem value?_congr (hash : String → Nat) {c c1 : Cache} (hs : c1.shards = c.shards)
    (hh : c1.heap = c.heap) (k : String) : c1.value? hash k = c.value? hash k := by
  simp [Cache.value?, Cache.deref, hs, hh]

/-- C4: a sequence of `Get` calls, with any `getThresh`, loses and alters
nothing: every call returns the value stored for its key at the start (with
true) or `("", false)` for an absent key, and afterwards every key has the same
stored value as before, the shards and stored values are unchanged, the list
holds the same elements and `Len()` is the same. -/
theorem gets_preserve_entries (hash : String → Nat) (ks : List String) (c : Cache) :
    (getAll hash c ks).1 =
        ks.map (fun k => ((c.value? hash k).getD "", (c.value? hash k).isSome)) ∧
      (∀ k, (getAll hash c ks).2.value? hash k = c.value? hash k) ∧
      (getAll hash c ks).2.shards = c.shards ∧ (getAll hash c ks).2.heap = c.heap ∧
      (getAll hash c ks).2.ll.Perm c.ll ∧ (getAll hash c ks).2.Len = c.Len := by
  induction ks generalizing c with
  | nil => simp [getAll]
  | cons k ks ih =>
    obtain ⟨h1, h2, _, _, _, _, _, h8⟩ := Get_frame hash c k
    obtain ⟨g1, g2, g3, g4, g5, g6⟩ := ih (Get hash c k).2
    have hv : ∀ k', (Get hash c k).2.value? hash k' = c.value? hash k' :=
      value?_congr hash h1 h2
    refine ⟨?_, ?_, ?_, ?_, ?_, ?_⟩
    · simp only [getAll, List.map_cons, g1, Get_fst, hv]
    · intro k'; simp only [getAll]; rw [g2, hv]
    · simp only [getAll]; rw [g3, h1]
    · simp only [getAll]; rw [g4, h2]
    · simp only [getAll]; exact g5.trans h8
    · simp only [getAll]; rw [g6]; exact h8.length_eq

/-! ### C3: an insertion the trimmer does not react to -/

theorem addEntry_deref_lt (hash : String → Nat) (c : Cache) (k v : String) (p : Nat)
    (hp : p < c.heap.length) : (addEntry hash c k v).deref p = c.deref p := by
  rw [addEntry_eq]; exact getD_append_lt _ _ _ _ hp

theorem addEntry_deref_new (hash : String → Nat) (c : Cache) (k v : String) :
    (addEntry hash c k v).deref c.heap.length = ⟨k, v, some c.elems.length, shardOf hash k⟩ := by
  rw [addEntry_eq]; exact getD_append_length _ _ _

theorem addEntry_valueOf_new (hash : String → Nat) (c : Cache) (k v : String) :
    (addEntry hash c k v).valueOf c.elems.length =
      ⟨k, v, some c.elems.length, shardOf hash k⟩ := by
  have h : (addEntry hash c k v).elems.getD c.elems.length 0 = c.heap.length := by
    rw [addEntry_eq]; exact getD_append_length _ _ _
  rw [Cache.valueOf, h, addEntry_deref_new]

theorem addEntry_valueOf_old {hash : String → Nat} {c : Cache} (h : WF hash c) (k v : String)
    (e : Nat) (he : e ∈ c.ll) : (addEntry hash c k v).valueOf e = c.valueOf e := by
  have h1 : (addEntry hash c k v).elems.getD e 0 = c.elems.getD e 0 := by
    rw [addEntry_eq]; exact getD_append_lt _ _ _ _ (h.ll_lt e he)
  have h2 := (h.shard_ok _ _ _ (h.ll_ok e he).1).2.1
  rw [Cache.valueOf, h1, addEntry_deref_lt _ _ _ _ _ h2]; rfl

theorem addEntry_ll (hash : String → Nat) (c : Cache) (k v : String) :
    (addEntry hash c k v).ll = c.elems.length :: c.ll := by
  rw [addEntry_eq]

theorem entries_eq_of {c c1 : Cache} (l : List Nat) (hl : c1.ll = l)
    (hv : ∀ e ∈ l, c1.valueOf e = c.valueOf e) :
    c1.entries = l.map (fun e => ((c.valueOf e).k, (c.valueOf e).val)) := by
  unfold Cache.entries
  rw [hl]
  exact List.map_congr_left (fun e he => by rw [hv e he])

theorem addEntry_entries {hash : String → Nat} {c : Cache} (h : WF hash c) (k v : String) :
    (addEntry hash c k v).entries = (k, v) :: c.entries := by
  unfold Cache.entries
  rw [addEntry_ll, List.map_cons, addEntry_valueOf_new]
  congr 1
  exact List.map_congr_left (fun e he => by rw [addEntry_valueOf_old h k v e he])

theorem not_has_iff (hash : String → Nat) (c : Cache) (k : String) :
    ¬ c.has hash k ↔ (c.shards (shardOf hash k)).get k = none := by
  unfold Cache.has
  cases (c.shards (shardOf hash k)).get k <;> simp

theorem Add_absent (hash : String → Nat) (c : Cache) (k v : String) (hk : ¬ c.has hash k) :
    Add hash c k v = (true, trimStep (addEntry hash c k v)) := by
  rw [not_has_iff] at hk
  simp only [Add, hk]

/-- Where nothing wraps (counter, capacity and threshold below 2^63) the test of
`trim` is the comparison `counter + 1 - capacity >= delThresh - 1` of integers. -/
theorem trimFires_iff (c : Cache) (h0 : 0 ≤ c.listLen)
    (h1 : c.listLen + 1 < 9223372036854775808) (hc : c.cap < 9223372036854775808)
    (hd : c.delThresh < 9223372036854775808) :
    trimFires c ↔ (c.delThresh : Int) - 1 ≤ c.listLen + 1 - (c.cap : Int) := by
  rw [trimFires, trimExcess, trimCount, toInt_of_lt _ hc, toInt_of_lt _ hd,
    wrapInt_of_range (c.listLen + 1) (by omega) (by omega),
    wrapInt_of_range (c.listLen + 1 - (c.cap : Int)) (by omega) (by omega),
    wrapInt_of_range ((c.delThresh : Int) - 1) (by omega) (by omega)]

theorem has_iff_get (hash : String → Nat) (c : Cache) (k : String) :
    c.has hash k ↔ ∃ p, (c.shards (shardOf hash k)).get k = some p := by
  unfold Cache.has
  cases (c.shards (shardOf hash k)).get k <;> simp

theorem has_iff_mem_keys {hash : String → Nat} {c : Cache} (h : WF hash c) (k : String) :
    c.has hash k ↔ k ∈ c.keys := by
  rw [has_iff_get]
  constructor
  · rintro ⟨p, hp⟩
    obtain ⟨_, _, h3, _, e, _, h6, h7⟩ := h.shard_ok _ _ _ hp
    refine List.mem_map.mpr ⟨e, h6, ?_⟩
    simp only [Cache.valueOf, h7, h3]
  · intro hk
    obtain ⟨e, he, hek⟩ := List.mem_map.mp hk
    obtain ⟨g1, _⟩ := h.ll_ok e he
    have := (h.shard_ok _ _ _ g1).1
    rw [hek] at g1 this
    rw [this] at g1
    exact ⟨_, g1⟩

theorem keys_nodup {hash : String → Nat} {c : Cache} (h : WF hash c) : c.keys.Nodup := by
  unfold Cache.keys
  refine List.Nodup.map_on ?_ h.nodup_ll
  intro x hx y hy hxy
  obtain ⟨g1, g2⟩ := h.ll_ok x hx
  obtain ⟨f1, f2⟩ := h.ll_ok y hy
  have s1 := (h.shard_ok _ _ _ g1).1
  have s2 := (h.shard_ok _ _ _ f1).1
  simp only at hxy
  rw [s1, hxy] at g1
  rw [s2] at f1
  have hp : c.elems.getD x 0 = c.elems.getD y 0 := Option.some.inj (g1.symm.trans f1)
  have : (c.valueOf x).listVal = (c.valueOf y).listVal := by simp only [Cache.valueOf, hp]
  rw [g2, f2] at this
  exact Option.some.inj this

theorem keys_eq_entries (c : Cache) : c.keys = c.entries.map Prod.fst := by
  simp [Cache.keys, Cache.entries]

theorem value?_eq_lookup {hash : String → Nat} {c : Cache} (h : WF hash c) (k : String) :
    c.value? hash k = c.entries.lookup k := by
  have hnd := keys_nodup h
  cases hg : (c.shards (shardOf hash k)).get k with
  | none =>
    have hn : k ∉ c.keys := by
      rw [← has_iff_mem_keys h, not_has_iff]; exact hg
    rw [Cache.value?, hg, Option.map_none']
    symm
    rw [List.lookup_eq_none_iff]
    intro q hq
    have hne : k ≠ q.1 := by
      intro hqk
      apply hn
      rw [keys_eq_entries]
      exact hqk ▸ List.mem_map_of_mem _ hq
    simpa using hne
  | some p =>
    obtain ⟨_, _, h3, _, e, _, h6, h7⟩ := h.shard_ok _ _ _ hg
    rw [Cache.value?, hg, Option.map_some']
    have hmem : (k, (c.deref p).val) ∈ c.entries := by
      refine List.mem_map.mpr ⟨e, h6, ?_⟩
      simp only [Cache.valueOf, h7, h3]
    symm
    rw [keys_eq_entries] at hnd
    generalize c.entries = l at hnd hmem
    induction l with
    | nil => simp at hmem
    | cons q l ih =>
      obtain ⟨a, b⟩ := q
      simp only [List.map_cons, List.nodup_cons] at hnd
      by_cases hka : k = a
      · subst hka
        rw [lookup_cons_eq]
        rcases List.mem_cons.mp hmem with heq | hm
        · rw [(Prod.mk.inj heq).2]
        · exact absurd (List.mem_map_of_mem Prod.fst hm) hnd.1
      · rw [lookup_cons_ne hka]
        rcases List.mem_cons.mp hmem with heq | hm
        · exact absurd (Prod.mk.inj heq).1 hka
        · exact ih hnd.2 hm

/-! ### Insertions while the counter equals `Len()` -/

theorem trim_arith (c : Cache) (n : Nat) (hsync : c.listLen = (n : Int))
    (hb : c.cap + c.delThresh ≤ 9223372036854775808) (hlen : n + 1 ≤ c.cap + c.delThresh)
    (hd : 1 ≤ c.delThresh) (hd2 : c.delThresh < 9223372036854775808) :
    (trimFires c ↔ c.cap + c.delThresh ≤ n + 2) ∧
      (trimFires c → (trimExcess c).toNat = n + 1 - c.cap ∧
        wrapInt (trimCount c - trimExcess c) = (c.cap : Int)) ∧
      (¬ trimFires c → trimCount c = (n : Int) + 1) := by
  have hcap : toInt c.cap = (c.cap : Int) := toInt_of_lt _ (by omega)
  have hdt : wrapInt (toInt c.delThresh - 1) = (c.delThresh : Int) - 1 := by
    rw [toInt_of_lt _ hd2]; exact wrapInt_of_range _ (by omega) (by omega)
  by_cases hw : n + 1 < 9223372036854775808
  · have h1 : trimCount c = (n : Int) + 1 := by
      rw [trimCount, hsync]; exact wrapInt_of_range _ (by omega) (by omega)
    have h2 : trimExcess c = (n : Int) + 1 - c.cap := by
      rw [trimExcess, h1, hcap]; exact wrapInt_of_range _ (by omega) (by omega)
    have h3 : trimFires c ↔ c.cap + c.delThresh ≤ n + 2 := by
      rw [trimFires, h2, hdt]; omega
    refine ⟨h3, fun hf => ⟨?_, ?_⟩, fun _ => h1⟩
    · rw [h2]; have := h3.mp hf; omega
    · rw [h1, h2]; exact (wrapInt_of_range _ (by omega) (by omega)).trans (by omega)
  · have hn : n + 1 = 9223372036854775808 := by omega
    have h1 : trimCount c = -9223372036854775808 := by
      rw [trimCount, hsync]
      have : (n : Int) + 1 = 9223372036854775808 := by omega
      rw [this]; rfl
    have h2 : trimExcess c = (c.delThresh : Int) := by
      rw [trimExcess, h1, hcap]
      have : (-9223372036854775808 : Int) - c.cap = (c.delThresh : Int) - 18446744073709551616 := by
        omega
      rw [this]
      unfold wrapInt
      omega
    have h3 : trimFires c := by rw [trimFires, h2, hdt]; omega
    refine ⟨⟨fun _ => by omega, fun _ => h3⟩, fun _ => ⟨?_, ?_⟩, fun hf => absurd h3 hf⟩
    · rw [h2]; omega
    · rw [h1, h2]
      have : (-9223372036854775808 : Int) - c.delThresh = (c.cap : Int) - 18446744073709551616 := by
        omega
      rw [this]
      unfold wrapInt
      omega

theorem trimAmount_sync (c : Cache) (n : Nat) (hsync : c.listLen = (n : Int))
    (hb : c.cap + c.delThresh ≤ 9223372036854775808) (hlen : n + 1 ≤ c.cap + c.delThresh)
    (hd : 1 ≤ c.delThresh) (hd2 : c.delThresh < 9223372036854775808) :
    trimAmount c = if c.cap + c.delThresh ≤ n + 2 then n + 1 - c.cap else 0 := by
  obtain ⟨h1, h2, _⟩ := trim_arith c n hsync hb hlen hd hd2
  unfold trimAmount
  by_cases hf : trimFires c
  · rw [if_pos hf, if_pos (h1.mp hf), (h2 hf).1]
  · rw [if_neg hf, if_neg (fun h => hf (h1.mpr h))]

theorem valueOf_congr {c c1 : Cache} (hh : c1.heap = c.heap) (he : c1.elems = c.elems)
    (e : Nat) : c1.valueOf e = c.valueOf e := by
  simp [Cache.valueOf, Cache.deref, hh, he]

theorem entries_take {c c1 : Cache} (hh : c1.heap = c.heap) (he : c1.elems = c.elems) (m : Nat)
    (hl : c1.ll = c.ll.take m) : c1.entries = c.entries.take m := by
  unfold Cache.entries
  rw [hl, List.map_take]
  congr 1
  exact List.map_congr_left (fun e _ => by rw [valueOf_congr hh he])

/-- One insertion into a state whose counter equals `Len()`. -/
theorem Add_sync_step {hash : String → Nat} {c : Cache} (h : WF hash c) (k v : String)
    (hk : ¬ c.has hash k) (hsync : c.listLen = (c.ll.length : Int))
    (hb : c.cap + c.delThresh ≤ 9223372036854775808)
    (hlen : c.ll.length + 1 ≤ c.cap + c.delThresh) (hd : 1 ≤ c.delThresh)
    (hd2 : c.delThresh < 9223372036854775808) :
    ∃ c1, Add hash c k v = (true, some c1) ∧ WF hash c1 ∧
      c1.listLen = (c1.ll.length : Int) ∧
      c1.ll.length = nextLen c.cap c.delThresh c.ll.length ∧
      c1.entries = ((k, v) :: c.entries).take (nextLen c.cap c.delThresh c.ll.length) ∧
      c1.cap = c.cap ∧ c1.getThresh = c.getThresh ∧ c1.delThresh = c.delThresh ∧
      c1.a = c.a := by
  have hw := WF_addEntry h k v ((not_has_iff hash c k).mp hk)
  have hX : (addEntry hash c k v).listLen = c.listLen ∧ (addEntry hash c k v).cap = c.cap ∧
      (addEntry hash c k v).delThresh = c.delThresh ∧
      (addEntry hash c k v).getThresh = c.getThresh ∧ (addEntry hash c k v).a = c.a := by
    rw [addEntry_eq]; exact ⟨rfl, rfl, rfl, rfl, rfl⟩
  obtain ⟨x1, x2, x3, x4, x5⟩ := hX
  have hxl : (addEntry hash c k v).ll.length = c.ll.length + 1 := by simp [addEntry_ll]
  have hs1 : (addEntry hash c k v).listLen = (c.ll.length : Int) := x1.trans hsync
  obtain ⟨a1, a2, a3⟩ := trim_arith (addEntry hash c k v) c.ll.length hs1
    (by rw [x2, x3]; exact hb) (by rw [x2, x3]; exact hlen) (by rw [x3]; exact hd)
    (by rw [x3]; exact hd2)
  have ham := trimAmount_sync (addEntry hash c k v) c.ll.length hs1
    (by rw [x2, x3]; exact hb) (by rw [x2, x3]; exact hlen) (by rw [x3]; exact hd)
    (by rw [x3]; exact hd2)
  rw [x2, x3] at ham a1
  rw [x2] at a2
  have hle : trimAmount (addEntry hash c k v) ≤ (addEntry hash c k v).ll.length := by
    rw [ham, hxl]; split <;> omega
  obtain ⟨c1, h1, h2, h3, h4, h5, h6, h7, h8, h9, h10, _⟩ := trimStep_ok hw hle
  have hm : (addEntry hash c k v).ll.length - trimAmount (addEntry hash c k v) =
      nextLen c.cap c.delThresh c.ll.length := by
    rw [ham, hxl, nextLen]; split <;> omega
  rw [hm] at h3
  have hl1 : c1.ll.length = nextLen c.cap c.delThresh c.ll.length := by
    rw [h3, List.length_take, hxl, nextLen]; split <;> omega
  refine ⟨c1, ?_, h2, ?_, hl1, ?_, h6.trans x2, h7.trans x4, h8.trans x3, h9.trans x5⟩
  · rw [Add_absent hash c k v hk, h1]
  · rw [h10, hl1, nextLen]
    by_cases hf : c.cap + c.delThresh ≤ c.ll.length + 2
    · rw [if_pos (a1.mpr hf), if_pos hf, (a2 (a1.mpr hf)).2]
    · rw [if_neg (fun h => hf (a1.mp h)), if_neg hf, a3 (fun h => hf (a1.mp h))]
      push_cast; rfl
  · rw [entries_take h4 h5 _ h3, addEntry_entries h k v]

theorem nextLen_le_succ (cap dt len : Nat) (hd : 1 ≤ dt) : nextLen cap dt len ≤ len + 1 := by
  unfold nextLen; split <;> omega

theorem nextLen_bound (cap dt len : Nat) (hd : 1 ≤ dt) :
    nextLen cap dt len + 1 ≤ cap + dt := by
  unfold nextLen; split <;> omega

theorem lenAfter_le (cap dt : Nat) (hd : 1 ≤ dt) : ∀ n len, lenAfter cap dt n len ≤ len + n := by
  intro n
  induction n with
  | zero => intro len; simp [lenAfter]
  | succ n ih =>
    intro len
    have := ih (nextLen cap dt len)
    have := nextLen_le_succ cap dt len hd
    simp only [lenAfter]; omega

theorem take_append_take {α : Type} (A B : List α) (m m1 : Nat) (h : m ≤ A.length + m1) :
    (A ++ B.take m1).take m = (A ++ B).take m := by
  rw [List.take_append_eq_append_take, List.take_append_eq_append_take, List.take_take]
  congr 2
  omega

/-- A sequence of insertions of new keys into a state whose counter equals `Len()`. -/
theorem addAll_sync {hash : String → Nat} : ∀ (kvs : List (String × String)) (c : Cache),
    WF hash c → c.listLen = (c.ll.length : Int) →
    c.cap + c.delThresh ≤ 9223372036854775808 → c.ll.length + 1 ≤ c.cap + c.delThresh →
    1 ≤ c.delThresh → c.delThresh < 9223372036854775808 →
    (kvs.map Prod.fst).Nodup → (∀ k ∈ kvs.map Prod.fst, k ∉ c.keys) →
    ∃ c1, addAll hash c kvs = some (List.replicate kvs.length true, c1) ∧ WF hash c1 ∧
      c1.listLen = (c1.ll.length : Int) ∧
      c1.ll.length = lenAfter c.cap c.delThresh kvs.length c.ll.length ∧
      c1.entries = (kvs.reverse ++ c.entries).take c1.ll.length ∧
      c1.ll.length + 1 ≤ c.cap + c.delThresh ∧
      c1.cap = c.cap ∧ c1.getThresh = c.getThresh ∧ c1.delThresh = c.delThresh ∧
      c1.a = c.a := by
  intro kvs
  induction kvs with
  | nil =>
    intro c h hs _ hlen _ _ _ _
    exact ⟨c, rfl, h, hs, rfl, by simp [Cache.entries], hlen, rfl, rfl, rfl, rfl⟩
  | cons kv kvs ih =>
    intro c h hs hb hlen hd hd2 hnd hfresh
    simp only [List.map_cons, List.nodup_cons] at hnd
    have hk : ¬ c.has hash kv.1 := by
      rw [has_iff_mem_keys h]; exact hfresh kv.1 (by simp)
    obtain ⟨c1, h1, h2, h3, h4, h5, h6, h7, h8, h9⟩ :=
      Add_sync_step h kv.1 kv.2 hk hs hb hlen hd hd2
    have hlen1 : c1.ll.length + 1 ≤ c1.cap + c1.delThresh := by
      rw [h4, h6, h8]; exact nextLen_bound _ _ _ hd
    have hfresh1 : ∀ k ∈ kvs.map Prod.fst, k ∉ c1.keys := by
      intro k hkm hkc
      rw [keys_eq_entries, h5] at hkc
      have := (List.take_sublist _ _).map Prod.fst |>.subset hkc
      simp only [List.map_cons, List.mem_cons] at this
      rcases this with rfl | hm
      · exact hnd.1 hkm
      · rw [← keys_eq_entries] at hm
        exact hfresh k (List.mem_cons_of_mem _ hkm) hm
    obtain ⟨c2, g1, g2, g3, g4, g5, g6, g7, g8, g9, g10⟩ :=
      ih c1 h2 h3 (by rw [h6, h8]; exact hb) hlen1 (by rw [h8]; exact hd)
        (by rw [h8]; exact hd2) hnd.2 hfresh1
    refine ⟨c2, ?_, g2, g3, ?_, ?_, ?_, g7.trans h6, g8.trans h7, g9.trans h8, g10.trans h9⟩
    · simp only [addAll, h1, g1, Option.map_some', List.length_cons, List.replicate_succ]
    · rw [g4, h6, h8, h4]; rfl
    · rw [g5, h5, List.reverse_cons, List.append_assoc, List.singleton_append]
      apply take_append_take
      rw [g4, h6, h8, h4, List.length_reverse]
      have := lenAfter_le c.cap c.delThresh hd kvs.length (nextLen c.cap c.delThresh c.ll.length)
      omega
    · rw [h6, h8] at g6; exact g6

/-! ### Closed form of `Len()` after insertions of new keys -/

theorem lenAfter_succ (cap dt : Nat) : ∀ n len,
    lenAfter cap dt (n + 1) len = nextLen cap dt (lenAfter cap dt n len) := by
  intro n
  induction n with
  | zero => intro len; rfl
  | succ n ih => intro len; rw [lenAfter, ih]; rfl

theorem succ_mod_cases (a T : Nat) (hT : 0 < T) :
    (a % T + 1 = T ∧ (a + 1) % T = 0) ∨ (a % T + 1 < T ∧ (a + 1) % T = a % T + 1) := by
  have hlt := Nat.mod_lt a hT
  have h : (a + 1) % T = (a % T + 1) % T := by
    rw [Nat.add_mod, Nat.add_mod (a % T) 1, Nat.mod_mod]
  by_cases he : a % T + 1 = T
  · left; exact ⟨he, by rw [h, he, Nat.mod_self]⟩
  · right
    have : a % T + 1 < T := by omega
    exact ⟨this, by rw [h, Nat.mod_eq_of_lt this]⟩

theorem lenAfter_closed (cap dt : Nat) (hd : 1 ≤ dt) (n : Nat) :
    lenAfter cap dt n 0 = lenClosed cap dt n := by
  induction n with
  | zero => simp [lenAfter, lenClosed, batch]
  | succ n ih =>
    rw [lenAfter_succ, ih]
    unfold lenClosed nextLen
    have hT : 0 < batch dt := by unfold batch; omega
    have hT1 : batch dt = dt - 1 ∨ (batch dt = 1 ∧ dt ≤ 2) := by unfold batch; omega
    have hT2 : dt ≤ batch dt + 1 := by unfold batch; omega
    by_cases h1 : n < cap + batch dt
    · rw [if_pos h1]
      by_cases h2 : n + 1 < cap + batch dt
      · rw [if_pos h2]; split <;> omega
      · rw [if_neg h2]
        have hn : n + 1 - cap = batch dt := by omega
        rw [hn, Nat.mod_self]
        split <;> omega
    · rw [if_neg h1, if_neg (show ¬ n + 1 < cap + batch dt by omega)]
      have hsub : n + 1 - cap = (n - cap) + 1 := by omega
      rw [hsub]
      rcases succ_mod_cases (n - cap) (batch dt) hT with ⟨e1, e2⟩ | ⟨e1, e2⟩
      · rw [e2]; split <;> omega
      · rw [e2]; split <;> omega

theorem lenClosed_bounds (cap dt n : Nat) (hd : 1 ≤ dt) :
    min n cap ≤ lenClosed cap dt n ∧ lenClosed cap dt n + 1 ≤ cap + dt := by
  unfold lenClosed
  have hT : 0 < batch dt := by unfold batch; omega
  have hT2 : batch dt ≤ dt := by unfold batch; omega
  have hlt := Nat.mod_lt (n - cap) hT
  have hT3 : batch dt = dt - 1 ∨ (batch dt = 1 ∧ dt ≤ 2) := by unfold batch; omega
  split <;> omega

/-! ### C7: bounds on `Len()` -/

theorem NewCache_fields (cp : Nat) (conf : Option CacheConfig) :
    (NewCache cp conf).ll = [] ∧ (NewCache cp conf).listLen = 0 ∧ (NewCache cp conf).cap = cp ∧
      (NewCache cp conf).a = [] ∧ (NewCache cp conf).entries = [] ∧
      (NewCache cp conf).keys = [] :=
  ⟨rfl, rfl, rfl, rfl, rfl, rfl⟩

/-- C7 (amended): for a capacity and a stored `delThresh` with
`1 <= delThresh < 2^63` and `capacity + delThresh <= 2^63`, any sequence of
`Add` calls with pairwise distinct keys on a fresh cache succeeds (every call
returns true) and, all notifications processed, leaves `Len()` in the interval
`[min n capacity, capacity + delThresh - 1]`, `n` the number of calls; exactly,
`Len()` is `n` while `n < capacity + max (delThresh - 1) 1` and
`capacity + (n - capacity) mod max (delThresh - 1) 1` from then on. -/
theorem adds_len_interval (hash : String → Nat) (cp : Nat) (conf : Option CacheConfig)
    (kvs : List (String × String)) (hnd : (kvs.map Prod.fst).Nodup)
    (hd : 1 ≤ (NewCache cp conf).delThresh)
    (hd2 : (NewCache cp conf).delThresh < 9223372036854775808)
    (hb : cp + (NewCache cp conf).delThresh ≤ 9223372036854775808) :
    ∃ c1, addAll hash (NewCache cp conf) kvs = some (List.replicate kvs.length true, c1) ∧
      c1.Len = lenClosed cp (NewCache cp conf).delThresh kvs.length ∧
      min kvs.length cp ≤ c1.Len ∧ c1.Len ≤ cp + (NewCache cp conf).delThresh - 1 := by
  obtain ⟨f1, f2, f3, _, _, f6⟩ := NewCache_fields cp conf
  obtain ⟨c1, h1, _, _, h4, _, _, _⟩ := @addAll_sync hash kvs (NewCache cp conf)
    (WF_NewCache hash cp conf) (by rw [f1, f2]; rfl) (by rw [f3]; exact hb)
    (by rw [f1, f3]; simp only [List.length_nil]; omega) hd hd2 hnd (by rw [f6]; simp)
  rw [f1, f3, List.length_nil, lenAfter_closed _ _ hd] at h4
  have := lenClosed_bounds cp (NewCache cp conf).delThresh kvs.length hd
  refine ⟨c1, h1, h4, ?_, ?_⟩
  · rw [Cache.Len, h4]; exact this.1
  · rw [Cache.Len, h4]; omega

/-- Instance of C7: two insertions into a fresh cache of capacity 10 with
`DelThresh = 1`. -/
theorem adds_len_interval_witness :
    ∃ c1, addAll lenHash (NewCache 10 (some ⟨1, 1⟩)) [("a", "x"), ("bb", "y")] =
        some (List.replicate 2 true, c1) ∧
      c1.Len = lenClosed 10 (NewCache 10 (some ⟨1, 1⟩)).delThresh 2 ∧
      min 2 10 ≤ c1.Len ∧ c1.Len ≤ 10 + (NewCache 10 (some ⟨1, 1⟩)).delThresh - 1 :=
  adds_len_interval lenHash 10 (some ⟨1, 1⟩) [("a", "x"), ("bb", "y")] (by decide) (by decide)
    (by decide) (by decide)

/-- C7 as stated fails: on `NewCache(10, {GetThresh: 1, DelThresh: 1})` a single
`Add("a", "a")` returns true and leaves `Len() = 1`, below the claimed lower
bound `capacity = 10`. -/
theorem adds_len_below_capacity :
    (addAll lenHash (NewCache 10 (some ⟨1, 1⟩)) [("a", "a")]).map
        (fun r => (r.1, r.2.cap, r.2.delThresh, r.2.Len, decide (r.2.cap ≤ r.2.Len))) =
      some ([true], 10, 1, 1, false) := by
  decide

/-! ### C2: no duplicate insertion -/

theorem Add_present (hash : String → Nat) (c : Cache) (k v : String)
    (h : c.has hash k) : Add hash c k v = (false, some c) := by
  obtain ⟨p, hp⟩ := (has_iff_get hash c k).mp h
  simp only [Add, hp]

theorem trimAmount_addEntry (hash : String → Nat) (c : Cache) (k v : String) :
    trimAmount (addEntry hash c k v) = trimAmount c := by
  rw [addEntry_eq]; rfl

/-- C2 (amended): in a reachable state where key `k` is absent and the trimmer
step triggered by the insertion evicts at most `Len()` entries (fewer than the
list holds once `k` is pushed), `Add(k, v1)` returns true, a following
`Add(k, v2)` returns false and changes nothing, and a following `Get(k)`
returns `(v1, true)`. -/
theorem add_twice_keeps_first (hash : String → Nat) (c : Cache) (k v1 v2 : String)
    (hr : Reachable hash c) (hk : ¬ c.has hash k) (ht : trimAmount c ≤ c.Len) :
    ∃ c1, Add hash c k v1 = (true, some c1) ∧ Add hash c1 k v2 = (false, some c1) ∧
      (Get hash c1 k).1 = (v1, true) := by
  have hw := hr.wf
  have hwX := WF_addEntry hw k v1 ((not_has_iff hash c k).mp hk)
  have hxl : (addEntry hash c k v1).ll = c.elems.length :: c.ll := addEntry_ll hash c k v1
  have hle : trimAmount (addEntry hash c k v1) ≤ (addEntry hash c k v1).ll.length := by
    rw [trimAmount_addEntry, hxl, List.length_cons]; unfold Cache.Len at ht; omega
  obtain ⟨c1, h1, h2, h3, h4, h5, _⟩ := trimStep_ok hwX hle
  have hmem : c.elems.length ∈ c1.ll := by
    rw [h3, hxl, trimAmount_addEntry]
    have : (c.elems.length :: c.ll).length - trimAmount c = (c.ll.length - trimAmount c) + 1 := by
      unfold Cache.Len at ht; simp only [List.length_cons]; omega
    rw [this, List.take_succ_cons]
    exact List.mem_cons_self _ _
  have hv : c1.valueOf c.elems.length = ⟨k, v1, some c.elems.length, shardOf hash k⟩ := by
    rw [valueOf_congr h4 h5, addEntry_valueOf_new]
  obtain ⟨g1, _⟩ := h2.ll_ok _ hmem
  rw [hv] at g1
  simp only at g1
  have hval : c1.value? hash k = some v1 := by
    have : c1.deref (c1.elems.getD c.elems.length 0) = c1.valueOf c.elems.length := rfl
    rw [Cache.value?, g1, Option.map_some', this, hv]
  have hhas : c1.has hash k := (has_iff_get hash c1 k).mpr ⟨_, g1⟩
  refine ⟨c1, ?_, Add_present hash c1 k v2 hhas, ?_⟩
  · rw [Add_absent hash c k v1 hk, h1]
  · rw [Get_fst, hval]; rfl

/-- Instance of C2: `Add("bb", "v1")`, `Add("bb", "v2")` on a cache of capacity 10
that holds `"a"`. -/
theorem add_twice_keeps_first_witness :
    ∃ c1, Add lenHash demoOne "bb" "v1" = (true, some c1) ∧
      Add lenHash c1 "bb" "v2" = (false, some c1) ∧ (Get lenHash c1 "bb").1 = ("v1", true) :=
  add_twice_keeps_first lenHash demoOne "bb" "v1" "v2" demoOne_reachable (by decide)
    (by decide)

/-- C2 as stated fails. On `NewCache(0, nil)` the entry of `Add("k", "v1")` is
evicted by the trimmer step that call triggers, so `Add("k", "v2")` returns
true and `Get("k")` finds nothing. On `NewCache(10, nil)` holding `("k", "v0")`
both calls return false and `Get("k")` returns `("v0", true)`, not `"v1"`. -/
theorem add_twice_second_succeeds :
    (run lenHash (NewCache 0 none) [Op.add "k" "v1", Op.add "k" "v2", Op.get "k"]).map
        (fun r => r.1) = some [Res.added true, Res.added true, Res.got "" false] ∧
    (run lenHash (NewCache 10 none)
        [Op.add "k" "v0", Op.add "k" "v1", Op.add "k" "v2", Op.get "k"]).map (fun r => r.1) =
      some [Res.added true, Res.added false, Res.added false, Res.got "v0" true] := by
  decide

/-! ### C5: `Remove` of a present key -/

theorem unlink_has (hash : String → Nat) (c : Cache) (k : String) (e : Nat) (k1 : String) :
    (unlink c (shardOf hash k) k e).has hash k1 ↔ c.has hash k1 ∧ k1 ≠ k := by
  rw [has_iff_get, has_iff_get]
  simp only [unlink_get]
  by_cases hk : k1 = k
  · subst hk; simp
  · have : (shardOf hash k1, k1) ≠ (shardOf hash k, k) := fun h => hk (Prod.mk.inj h).2
    simp [this, hk]

/-- `Remove` of a present key in a consistent state. -/
theorem Remove_has {hash : String → Nat} {c : Cache} (h : WF hash c) {k : String}
    (hk : c.has hash k) :
    ∃ c1, Remove hash c k = some (true, c1) ∧ WF hash c1 ∧ c1.Len + 1 = c.Len ∧
      (∀ k1, c1.has hash k1 ↔ c.has hash k1 ∧ k1 ≠ k) := by
  obtain ⟨p, hp⟩ := (has_iff_get hash c k).mp hk
  obtain ⟨e, h1, h2, h3⟩ := Remove_present h hp
  refine ⟨_, h3, WF_unlink h hp h1, ?_, unlink_has hash c k e⟩
  simp only [Cache.Len, unlink, listRemove]
  rw [List.length_erase_of_mem h2]
  have := List.length_pos_of_mem h2
  omega

theorem removeAll_ok {hash : String → Nat} : ∀ (ks : List String) (c : Cache), WF hash c →
    ks.Nodup → (∀ k ∈ ks, c.has hash k) →
    ∃ c2, removeAll hash c ks = some (List.replicate ks.length true, c2) ∧ WF hash c2 ∧
      c2.Len + ks.length = c.Len ∧ (∀ k1, c2.has hash k1 ↔ c.has hash k1 ∧ k1 ∉ ks) := by
  intro ks
  induction ks with
  | nil => intro c h _ _; exact ⟨c, rfl, h, rfl, by simp⟩
  | cons k ks ih =>
    intro c h hnd hall
    simp only [List.nodup_cons] at hnd
    obtain ⟨c1, h1, h2, h3, h4⟩ := Remove_has h (hall k (List.mem_cons_self _ _))
    have hall1 : ∀ k1 ∈ ks, c1.has hash k1 := fun k1 hk1 =>
      (h4 k1).mpr ⟨hall k1 (List.mem_cons_of_mem _ hk1), fun he => hnd.1 (he ▸ hk1)⟩
    obtain ⟨c2, g1, g2, g3, g4⟩ := ih c1 h2 hnd.2 hall1
    refine ⟨c2, ?_, g2, ?_, ?_⟩
    · simp only [removeAll, h1, g1, Option.map_some', List.length_cons, List.replicate_succ]
    · simp only [List.length_cons]; omega
    · intro k1
      rw [g4, h4, List.mem_cons]
      constructor
      · rintro ⟨⟨a, b⟩, c⟩; exact ⟨a, fun h => h.elim b c⟩
      · rintro ⟨a, b⟩; exact ⟨⟨a, fun h => b (Or.inl h)⟩, fun h => b (Or.inr h)⟩

theorem lenClosed_of_le (cap dt n : Nat) (h : n ≤ cap) : lenClosed cap dt n = n := by
  unfold lenClosed batch
  rw [if_pos]; omega

/-- What `Remove` does where the code is right: in every reachable state where
key `k` is present `Remove(k)` returns true and decreases `Len()` by exactly
one, an immediately following `Get(k)` finds nothing and the flag of a
following `Add(k, v)` is true. And for a
capacity and a stored `delThresh` with `1 <= delThresh < 2^63` and
`capacity + delThresh <= 2^63`, `n <= capacity` pairwise distinct keys added to
a fresh cache are all stored (every `Add` returns true), each of them is
removed with result true, in any order, and a second `Remove` of any of them
returns false. -/
theorem remove_correct (hash : String → Nat) :
    (∀ (c : Cache) (k : String), Reachable hash c → c.has hash k →
      ∃ c1, Remove hash c k = some (true, c1) ∧ c1.Len + 1 = c.Len ∧
        (Get hash c1 k).1 = ("", false) ∧ ∀ v, (Add hash c1 k v).1 = true) ∧
    (∀ (cp : Nat) (conf : Option CacheConfig) (kvs : List (String × String)) (ks : List String),
      (kvs.map Prod.fst).Nodup → ks.Perm (kvs.map Prod.fst) → kvs.length ≤ cp →
      1 ≤ (NewCache cp conf).delThresh →
      (NewCache cp conf).delThresh < 9223372036854775808 →
      cp + (NewCache cp conf).delThresh ≤ 9223372036854775808 →
      ∃ c1 c2, addAll hash (NewCache cp conf) kvs = some (List.replicate kvs.length true, c1) ∧
        removeAll hash c1 ks = some (List.replicate ks.length true, c2) ∧
        ∀ k ∈ ks, Remove hash c2 k = some (false, c2)) := by
  constructor
  · intro c k hr hk
    obtain ⟨c1, h1, _, h3, h4⟩ := Remove_has hr.wf hk
    have hno : ¬ c1.has hash k := fun h => ((h4 k).mp h).2 rfl
    refine ⟨c1, h1, h3, ?_, ?_⟩
    · have hv : c1.value? hash k = none := by
        rw [Cache.value?, (not_has_iff hash c1 k).mp hno]; rfl
      rw [Get_fst, hv]; rfl
    · intro v; rw [Add_absent hash c1 k v hno]
  · intro cp conf kvs ks hnd hperm hn hd hd2 hb
    obtain ⟨f1, f2, f3, _, f5, f6⟩ := NewCache_fields cp conf
    obtain ⟨c1, h1, h2, _, h4, h5, _⟩ := @addAll_sync hash kvs (NewCache cp conf)
      (WF_NewCache hash cp conf) (by rw [f1, f2]; rfl) (by rw [f3]; exact hb)
      (by rw [f1, f3]; simp only [List.length_nil]; omega) hd hd2 hnd (by rw [f6]; simp)
    rw [f1, f3, List.length_nil, lenAfter_closed _ _ hd, lenClosed_of_le _ _ _ hn] at h4
    rw [f5, List.append_nil, h4, ← List.length_reverse kvs, List.take_length] at h5
    have hkeys : ∀ k ∈ ks, c1.has hash k := by
      intro k hk
      rw [has_iff_mem_keys h2, keys_eq_entries, h5, List.map_reverse, List.mem_reverse]
      exact hperm.subset hk
    obtain ⟨c2, g1, _, _, g4⟩ := removeAll_ok ks c1 h2 (hperm.nodup_iff.mpr hnd) hkeys
    refine ⟨c1, c2, h1, g1, ?_⟩
    intro k hk
    apply Remove_absent
    rw [← not_has_iff]
    exact fun h => ((g4 k).mp h).2 hk

/-- Instance of `remove_correct`: `Remove("a")` on the cache that holds `"a"`, and two keys
added to a fresh cache of capacity 2 with the default thresholds, removed in the
opposite order. -/
theorem remove_correct_witness :
    (∃ c1, Remove lenHash demoOne "a" = some (true, c1) ∧ c1.Len + 1 = demoOne.Len ∧
        (Get lenHash c1 "a").1 = ("", false) ∧ ∀ v, (Add lenHash c1 "a" v).1 = true) ∧
    (∃ c1 c2, addAll lenHash (NewCache 2 none) [("a", "x"), ("bb", "y")] =
        some (List.replicate 2 true, c1) ∧
      removeAll lenHash c1 ["bb", "a"] = some (List.replicate 2 true, c2) ∧
      ∀ k ∈ ["bb", "a"], Remove lenHash c2 k = some (false, c2)) :=
  ⟨(remove_correct lenHash).1 demoOne "a" demoOne_reachable (by decide),
    (remove_correct lenHash).2 2 none [("a", "x"), ("bb", "y")] ["bb", "a"] (by decide)
      (by decide) (by decide) (by decide) (by decide) (by decide)⟩

/-- C5: a key added to a fresh cache of sufficient capacity cannot always be
removed. For capacities of 2^63 and more `int(c.cap)` is negative: on
`NewCache(18446744073709551615, {GetThresh: 1, DelThresh: 1})`, whose capacity
is at least 1, `Add("a", "a")` returns true but the trimmer computes the excess
2, evicts `"a"` in the first round of its loop and panics on the empty list in
the second, so `"a"` cannot be removed with result true. -/
theorem remove_after_add_huge_capacity :
    (Add lenHash (NewCache 18446744073709551615 (some ⟨1, 1⟩)) "a" "a").1 = true ∧
    (Add lenHash (NewCache 18446744073709551615 (some ⟨1, 1⟩)) "a" "a").2.isNone = true ∧
    trimExcess (addEntry lenHash (NewCache 18446744073709551615 (some ⟨1, 1⟩)) "a" "a") = 2 ∧
    (trimLoop 1 (addEntry lenHash (NewCache 18446744073709551615 (some ⟨1, 1⟩)) "a" "a")).map
      (fun c => (c.Len, decide (c.has lenHash "a"))) = some (0, false) := by
  decide

/-- After a successful `Remove` the slot is not always reusable, since `Remove`
leaves the counter of the trimmer as it is. On `NewCache(1, nil)` after
`Add("a")` and `Remove("a")` a further `Add("a")` returns true and the trimmer
evicts the entry at once, so `Get("a")` finds nothing. On
`NewCache(1, {GetThresh: 1, DelThresh: 3})` after `Add("a")`, `Add("b")`,
`Remove("a")`, `Remove("b")` the flag of `Add("b")` is true and the trimmer
panics. -/
theorem remove_slot_not_reusable :
    (run lenHash (NewCache 1 none)
        [Op.add "a" "1", Op.remove "a", Op.add "a" "2", Op.get "a"]).map
        (fun r => (r.1, r.2.Len)) =
      some ([Res.added true, Res.removed true, Res.added true, Res.got "" false], 0) ∧
    (run lenHash (NewCache 1 (some ⟨1, 3⟩))
        [Op.add "a" "1", Op.add "b" "2", Op.remove "a", Op.remove "b"]).map
        (fun r => (r.1, (Add lenHash r.2 "b" "3").1, (Add lenHash r.2 "b" "3").2.isNone)) =
      some ([Res.added true, Res.added true, Res.removed true, Res.removed true],
        true, true) := by
  decide

/-! ### C10: the default thresholds -/

theorem bitLenAux_le : ∀ (fuel n b : Nat), n < 2 ^ b → bitLenAux fuel n ≤ b := by
  intro fuel
  induction fuel with
  | zero => intro n b _; simp [bitLenAux]
  | succ fuel ih =>
    intro n b h
    unfold bitLenAux
    split
    · omega
    · next hn =>
      cases b with
      | zero => simp at h; omega
      | succ b =>
        have : n / 2 < 2 ^ b := by
          rw [Nat.div_lt_iff_lt_mul (by decide)]
          rw [pow_succ] at h; exact h
        have := ih (n / 2) b this
        omega

theorem bitLen_le (n b : Nat) (h : n < 2 ^ b) : bitLen n ≤ b := bitLenAux_le n n b h

theorem bitLenAux_spec : ∀ (fuel n : Nat), n ≤ fuel →
    n < 2 ^ bitLenAux fuel n ∧ (n ≠ 0 → 2 ^ (bitLenAux fuel n - 1) ≤ n) := by
  intro fuel
  induction fuel with
  | zero =>
    intro n hn
    have : n = 0 := by omega
    subst this
    simp [bitLenAux]
  | succ fuel ih =>
    intro n hn
    unfold bitLenAux
    split
    · next h0 => subst h0; simp
    · next h0 =>
      obtain ⟨h1, h2⟩ := ih (n / 2) (by omega)
      refine ⟨?_, fun _ => ?_⟩
      · rw [pow_succ]; omega
      · simp only [Nat.add_sub_cancel]
        by_cases hh : n / 2 = 0
        · have : bitLenAux fuel (n / 2) = 0 := by
            rw [hh]; cases fuel <;> simp [bitLenAux]
          rw [this]; simp; omega
        · have h3 := h2 hh
          have hpos : 0 < bitLenAux fuel (n / 2) := by
            rcases Nat.eq_zero_or_pos (bitLenAux fuel (n / 2)) with h | h
            · rw [h] at h1; simp at h1; exact absurd h1 hh
            · exact h
          have : bitLenAux fuel (n / 2) = (bitLenAux fuel (n / 2) - 1) + 1 := by omega
          rw [this, pow_succ]; omega

/-- `bitLen n` is the number of binary digits of `n`. -/
theorem bitLen_spec (n : Nat) : n < 2 ^ bitLen n ∧ (n ≠ 0 → 2 ^ (bitLen n - 1) ≤ n) :=
  bitLenAux_spec n n (le_refl n)

/-- `roundFloat64 n` is a float64: a number of at most 53 significant bits. -/
theorem roundFloat64_repr (n : Nat) :
    ∃ m, m ≤ 2 ^ 53 ∧ roundFloat64 n = m * 2 ^ (bitLen n - 53) := by
  have hq : n / 2 ^ (bitLen n - 53) < 2 ^ 53 := by
    rw [Nat.div_lt_iff_lt_mul (Nat.pow_pos (by decide)), ← pow_add]
    have h := (bitLen_spec n).1
    exact lt_of_lt_of_le h (Nat.pow_le_pow_right (by decide) (by omega))
  unfold roundFloat64
  simp only
  split
  · exact ⟨_, hq, rfl⟩
  · exact ⟨_, le_of_lt hq, rfl⟩

/-- `roundFloat64 n` is a nearest one: it differs from `n` by at most half a
unit in the last place. -/
theorem roundFloat64_nearest (n : Nat) :
    2 * (roundFloat64 n - n) ≤ 2 ^ (bitLen n - 53) ∧
      2 * (n - roundFloat64 n) ≤ 2 ^ (bitLen n - 53) := by
  have hdm := Nat.div_add_mod n (2 ^ (bitLen n - 53))
  have hlt := Nat.mod_lt n (Nat.pow_pos (n := bitLen n - 53) (by decide : 0 < 2))
  unfold roundFloat64
  simp only
  generalize 2 ^ (bitLen n - 53) = X at *
  generalize n / X = q at *
  generalize n % X = r at *
  have hmul : X * q = q * X := Nat.mul_comm _ _
  split
  · next h =>
    rw [Nat.add_mul, Nat.one_mul]
    omega
  · next h =>
    omega

theorem roundFloat64_of_lt (n : Nat) (h : n < 2 ^ 53) : roundFloat64 n = n := by
  have hs : bitLen n - 53 = 0 := by have := bitLen_le n 53 h; omega
  unfold roundFloat64
  simp [hs, Nat.mod_one]

theorem roundFloat64_bounds (n : Nat) :
    n / 2 ^ (bitLen n - 53) * 2 ^ (bitLen n - 53) ≤ roundFloat64 n ∧
      roundFloat64 n ≤ (n / 2 ^ (bitLen n - 53) + 1) * 2 ^ (bitLen n - 53) := by
  unfold roundFloat64
  simp only
  split
  · exact ⟨Nat.mul_le_mul_right _ (Nat.le_succ _), le_refl _⟩
  · exact ⟨le_refl _, Nat.mul_le_mul_right _ (Nat.le_succ _)⟩

/-- Truncating the rounded product: when the exact product `P` lies in
`[m * 2^K, (m + 1) * 2^K - 2^32)` the rounded one has integer part `m`. -/
theorem roundFloat64_div (P K m : Nat) (hK : 32 ≤ K) (hP : P < 2 ^ 85)
    (hlo : m * 2 ^ K ≤ P) (hhi : P + 2 ^ 32 < (m + 1) * 2 ^ K) :
    roundFloat64 P / 2 ^ K = m := by
  obtain ⟨h1, h2⟩ := roundFloat64_bounds P
  have hs : bitLen P - 53 ≤ 32 := by have := bitLen_le P 85 hP; omega
  generalize bitLen P - 53 = s at h1 h2 hs
  have hX : 0 < 2 ^ s := Nat.pow_pos (by decide)
  have hXle : 2 ^ s ≤ 2 ^ 32 := Nat.pow_le_pow_right (by decide) hs
  have hsplit : 2 ^ K = 2 ^ (K - s) * 2 ^ s := by
    rw [← pow_add]; congr 1; omega
  have hq : m * 2 ^ (K - s) ≤ P / 2 ^ s := by
    rw [Nat.le_div_iff_mul_le hX, Nat.mul_assoc, ← hsplit]; exact hlo
  have hlo' : m * 2 ^ K ≤ roundFloat64 P := by
    calc m * 2 ^ K = m * 2 ^ (K - s) * 2 ^ s := by rw [Nat.mul_assoc, ← hsplit]
      _ ≤ P / 2 ^ s * 2 ^ s := Nat.mul_le_mul_right _ hq
      _ ≤ roundFloat64 P := h1
  have hhi' : roundFloat64 P < (m + 1) * 2 ^ K := by
    have : (P / 2 ^ s + 1) * 2 ^ s ≤ P + 2 ^ s := by
      rw [Nat.add_mul, Nat.one_mul]
      exact Nat.add_le_add_right (Nat.div_mul_le_self _ _) _
    omega
  have hpos : 0 < 2 ^ K := Nat.pow_pos (by decide)
  apply Nat.le_antisymm
  · rw [← Nat.lt_succ_iff, Nat.div_lt_iff_lt_mul hpos]; exact hhi'
  · rw [Nat.le_div_iff_mul_le hpos]; exact hlo'

theorem mul002_eq (cp : Nat) (h : cp < 4294967296) : mul002 cp = cp / 50 := by
  unfold mul002
  rw [roundFloat64_of_lt cp (by omega)]
  apply roundFloat64_div _ 58 _ (by decide)
  · unfold mant; omega
  · unfold mant; omega
  · unfold mant; omega

theorem mul001_eq (cp : Nat) (h : cp < 4294967296) : mul001 cp = cp / 100 := by
  unfold mul001
  rw [roundFloat64_of_lt cp (by omega)]
  apply roundFloat64_div _ 59 _ (by decide)
  · unfold mant; omega
  · unfold mant; omega
  · unfold mant; omega

theorem NewCache_none (cp : Nat) : NewCache cp none = NewCache cp (some ⟨0, 0⟩) := rfl

/-- C10: for a capacity `cp` below 2^32 `NewCache` stores `conf.GetThresh` when
it is not zero and `cp div 50 + 2` otherwise as `getThresh`, `conf.DelThresh`
when it is not zero and `cp div 100 + 2` otherwise as `delThresh`; a nil
config gives the same cache as a config with both fields zero; the new cache
has capacity `cp`, `Len() = 0` and no key present. -/
theorem newCache_thresholds (cp : Nat) (conf : CacheConfig) (h : cp < 4294967296) :
    (NewCache cp (some conf)).getThresh =
        (if conf.GetThresh = 0 then cp / 50 + 2 else conf.GetThresh) ∧
      (NewCache cp (some conf)).delThresh =
        (if conf.DelThresh = 0 then cp / 100 + 2 else conf.DelThresh) ∧
      NewCache cp none = NewCache cp (some ⟨0, 0⟩) ∧
      (NewCache cp (some conf)).cap = cp ∧ (NewCache cp (some conf)).Len = 0 ∧
      (NewCache cp (some conf)).shardEntries = 0 ∧
      (∀ (hash : String → Nat) (k : String), ¬ (NewCache cp (some conf)).has hash k) := by
  refine ⟨?_, ?_, rfl, rfl, rfl, ?_, ?_⟩
  · simp only [NewCache, Option.getD_some]
    split
    · rw [mul002_eq cp h]; omega
    · rfl
  · simp only [NewCache, Option.getD_some]
    split
    · rw [mul001_eq cp h]; omega
    · rfl
  · simp [NewCache, Cache.shardEntries]
  · intro hash k
    simp [NewCache, Cache.has, shard.get]

/-- Instance of C10: `NewCache(1000, {GetThresh: 0, DelThresh: 7})`. -/
theorem newCache_thresholds_witness :
    (NewCache 1000 (some ⟨0, 7⟩)).getThresh =
        (if (⟨0, 7⟩ : CacheConfig).GetThresh = 0 then 1000 / 50 + 2
          else (⟨0, 7⟩ : CacheConfig).GetThresh) ∧
      (NewCache 1000 (some ⟨0, 7⟩)).delThresh =
        (if (⟨0, 7⟩ : CacheConfig).DelThresh = 0 then 1000 / 100 + 2
          else (⟨0, 7⟩ : CacheConfig).DelThresh) ∧
      NewCache 1000 none = NewCache 1000 (some ⟨0, 0⟩) ∧
      (NewCache 1000 (some ⟨0, 7⟩)).cap = 1000 ∧ (NewCache 1000 (some ⟨0, 7⟩)).Len = 0 ∧
      (NewCache 1000 (some ⟨0, 7⟩)).shardEntries = 0 ∧
      (∀ (hash : String → Nat) (k : String), ¬ (NewCache 1000 (some ⟨0, 7⟩)).has hash k) :=
  newCache_thresholds 1000 ⟨0, 7⟩ (by decide)

set_option maxRecDepth 10000 in
/-- Beyond the range of C10 the float64 product rounds away from the quotient:
for the capacity 2^64 - 1 the default `getThresh` is 368934881474191042, not
`(2^64 - 1) div 50 + 2 = 368934881474191034`. -/
theorem newCache_default_large :
    (NewCache 18446744073709551615 none).getThresh = 368934881474191042 ∧
      18446744073709551615 / 50 + 2 = 368934881474191034 := by
  decide

/-! ### C8: over-filling with default thresholds -/

theorem NewCache_defaults (cp : Nat) (h : cp < 4294967296) :
    (NewCache cp (some ⟨0, 0⟩)).getThresh = cp / 50 + 2 ∧
      (NewCache cp (some ⟨0, 0⟩)).delThresh = cp / 100 + 2 := by
  simp only [NewCache, Option.getD_some, if_true]
  rw [mul002_eq cp h, mul001_eq cp h]
  constructor <;> omega

theorem NewCache_default_delThresh (cp : Nat) (conf : Option CacheConfig)
    (hconf : conf = none ∨ conf = some ⟨0, 0⟩) (h : cp < 4294967296) :
    (NewCache cp conf).delThresh = cp / 100 + 2 := by
  have : NewCache cp conf = NewCache cp (some ⟨0, 0⟩) := by
    rcases hconf with rfl | rfl <;> rfl
  rw [this, (NewCache_defaults cp h).2]

theorem lenClosed_overfill (cp : Nat) :
    lenClosed cp (cp / 100 + 2) (2 * cp) = cp + cp % (cp / 100 + 1) := by
  have hb : batch (cp / 100 + 2) = cp / 100 + 1 := by unfold batch; omega
  unfold lenClosed
  rw [hb]
  split
  · next h =>
    have : cp = 0 := by omega
    subst this; rfl
  · have : 2 * cp - cp = cp := by omega
    rw [this]

/-- C8 (amended): for every capacity `c` below 2^32, on a fresh cache with
default thresholds (config nil or both fields zero), `2 * c` `Add` calls with
pairwise distinct keys all return true and leave
`Len() = c + c mod (c div 100 + 1)`, which is `c` exactly when `c div 100 + 1`
divides `c` (so for every `c < 100`); the number of shard entries equals
`Len()`, and the keys `Get` finds are exactly the `Len()` most recently added
ones, each with the value it was added with. -/
theorem overfill_default (hash : String → Nat) (cp : Nat) (conf : Option CacheConfig)
    (kvs : List (String × String)) (hconf : conf = none ∨ conf = some ⟨0, 0⟩)
    (hcp : cp < 4294967296) (hnd : (kvs.map Prod.fst).Nodup) (hlen : kvs.length = 2 * cp) :
    ∃ c1, addAll hash (NewCache cp conf) kvs = some (List.replicate (2 * cp) true, c1) ∧
      c1.Len = cp + cp % (cp / 100 + 1) ∧ (cp < 100 → c1.Len = cp) ∧
      c1.shardEntries = c1.Len ∧ c1.entries = kvs.reverse.take c1.Len ∧
      (∀ k, c1.has hash k ↔ k ∈ (kvs.reverse.take c1.Len).map Prod.fst) ∧
      ((kvs.reverse.take c1.Len).map Prod.fst).Nodup ∧
      (kvs.reverse.take c1.Len).length = c1.Len ∧
      (∀ k v, (k, v) ∈ kvs.reverse.take c1.Len → (Get hash c1 k).1 = (v, true)) := by
  have hdt := NewCache_default_delThresh cp conf hconf hcp
  obtain ⟨f1, f2, f3, _, f5, f6⟩ := NewCache_fields cp conf
  obtain ⟨c1, h1, h2, _, h4, h5, _⟩ := @addAll_sync hash kvs (NewCache cp conf)
    (WF_NewCache hash cp conf) (by rw [f1, f2]; rfl) (by rw [f3, hdt]; omega)
    (by rw [f1, f3, hdt]; simp only [List.length_nil]; omega) (by rw [hdt]; omega)
    (by rw [hdt]; omega) hnd (by rw [f6]; simp)
  rw [f1, f3, List.length_nil, lenAfter_closed _ _ (by rw [hdt]; omega), hdt, hlen,
    lenClosed_overfill] at h4
  rw [f5, List.append_nil] at h5
  have hL : c1.Len = cp + cp % (cp / 100 + 1) := h4
  have hnd1 := keys_nodup h2
  rw [keys_eq_entries, h5] at hnd1
  refine ⟨c1, by rw [h1, hlen], hL, ?_, h2.count, h5, ?_, hnd1, ?_, ?_⟩
  · intro hc
    rw [hL, Nat.div_eq_of_lt hc, Nat.zero_add, Nat.mod_one]; rfl
  · intro k; rw [has_iff_mem_keys h2, keys_eq_entries, h5]; rfl
  · show (kvs.reverse.take c1.ll.length).length = c1.ll.length
    rw [← h5, Cache.entries, List.length_map]
  · intro k v hkv
    have hv : c1.value? hash k = some v := by
      rw [value?_eq_lookup h2, h5]
      change (k, v) ∈ kvs.reverse.take c1.ll.length at hkv
      generalize kvs.reverse.take c1.ll.length = l at hnd1 hkv
      induction l with
      | nil => simp at hkv
      | cons q l ih =>
        obtain ⟨a, b⟩ := q
        simp only [List.map_cons, List.nodup_cons] at hnd1
        by_cases hka : k = a
        · subst hka
          rw [lookup_cons_eq]
          rcases List.mem_cons.mp hkv with heq | hm
          · rw [(Prod.mk.inj heq).2]
          · exact absurd (List.mem_map_of_mem Prod.fst hm) hnd1.1
        · rw [lookup_cons_ne hka]
          rcases List.mem_cons.mp hkv with heq | hm
          · exact absurd (Prod.mk.inj heq).1 hka
          · exact ih hnd1.2 hm
    rw [Get_fst, hv]; rfl

/-- Instance of C8: four insertions into `NewCache(2, nil)`. -/
theorem overfill_default_witness :
    ∃ c1, addAll lenHash (NewCache 2 none) (sampleKeys 4) =
        some (List.replicate (2 * 2) true, c1) ∧
      c1.Len = 2 + 2 % (2 / 100 + 1) ∧ (2 < 100 → c1.Len = 2) ∧
      c1.shardEntries = c1.Len ∧ c1.entries = (sampleKeys 4).reverse.take c1.Len ∧
      (∀ k, c1.has lenHash k ↔ k ∈ ((sampleKeys 4).reverse.take c1.Len).map Prod.fst) ∧
      (((sampleKeys 4).reverse.take c1.Len).map Prod.fst).Nodup ∧
      ((sampleKeys 4).reverse.take c1.Len).length = c1.Len ∧
      (∀ k v, (k, v) ∈ (sampleKeys 4).reverse.take c1.Len → (Get lenHash c1 k).1 = (v, true)) :=
  overfill_default lenHash 2 none (sampleKeys 4) (Or.inl rfl) (by decide) (by decide)
    (by decide)

set_option maxRecDepth 100000 in
/-- C8 as stated fails at capacity 101: `NewCache(101, nil)` has `delThresh = 3`,
so the trimmer cuts the list back to 101 on every second insertion above
capacity; after 202 `Add` calls with distinct keys (all returning true)
`Len()` is 102, not 101. By `overfill_default` the same holds for every hash
and every 202 distinct keys. -/
theorem overfill_101_leaves_102 :
    (addAll lenHash (NewCache 101 none) (sampleKeys 202)).map
        (fun r => (r.1.all id, r.2.cap, r.2.delThresh, r.2.Len)) =
      some (true, 101, 3, 102) := by
  decide

/-! ### C9: thresholds 1 give a strict LRU cache -/

theorem moveToFront_of_mem (l : List Nat) (e : Nat) (h : e ∈ l) :
    MoveToFront l e = e :: l.erase e := by
  unfold MoveToFront
  by_cases hh : l.head? = some e
  · rw [if_neg (fun hc => hc.2 hh)]
    cases l with
    | nil => simp at hh
    | cons x t =>
      simp only [List.head?_cons, Option.some.injEq] at hh
      subst hh
      simp
  · rw [if_pos ⟨h, hh⟩]

theorem map_erase_eq_filter (f : Nat → String × String) (k : String) (e : Nat) :
    ∀ (l : List Nat), l.Nodup → e ∈ l → (f e).1 = k → (∀ x ∈ l, (f x).1 = k → x = e) →
      (l.erase e).map f = (l.map f).filter (fun q => q.1 != k) := by
  intro l
  induction l with
  | nil => intro _ h; simp at h
  | cons x t ih =>
    intro hnd hmem hk hinj
    simp only [List.nodup_cons] at hnd
    by_cases hx : x = e
    · subst hx
      have hrest : (t.map f).filter (fun q => q.1 != k) = t.map f := by
        rw [List.filter_eq_self]
        intro q hq
        obtain ⟨y, hy, rfl⟩ := List.mem_map.mp hq
        have : (f y).1 ≠ k := fun h => hnd.1 (hinj y (List.mem_cons_of_mem _ hy) h ▸ hy)
        simpa using this
      simp [List.filter_cons, hk, hrest]
    · have hmem1 : e ∈ t := by
        rcases List.mem_cons.mp hmem with h | h
        · exact absurd h.symm hx
        · exact h
      have hxk : (f x).1 ≠ k := fun h => hx (hinj x (List.mem_cons_self _ _) h)
      have hbe : (x == e) = false := by simpa using hx
      have hne : (x :: t).erase e = x :: t.erase e := by
        rw [List.erase_cons, hbe]; rfl
      have : ((f x).1 != k) = true := by simpa using hxk
      rw [hne, List.map_cons, List.map_cons, List.filter_cons, this, if_pos rfl,
        ih hnd.2 hmem1 hk (fun y hy => hinj y (List.mem_cons_of_mem _ hy))]

/-- A `Get` hit with `getThresh = 1` and an empty buffer moves the entry to the front. -/
theorem Get_hit_immediate {hash : String → Nat} {c : Cache} (h : WF hash c) (k : String)
    (p : Nat) (hp : (c.shards (shardOf hash k)).get k = some p) (ha : c.a = [])
    (hg : c.getThresh = 1) :
    (Get hash c k).2.entries =
        (k, (c.deref p).val) :: c.entries.filter (fun q => q.1 != k) ∧
      (Get hash c k).2.a = [] := by
  obtain ⟨_, _, h3, _, e, h5, h6, h7⟩ := h.shard_ok _ _ _ hp
  have hstate : (Get hash c k).2 = { promote c p with a := [] } := by
    simp only [Get, hp, shedGetStep, ha, hg, List.nil_append, List.length_singleton, ge_iff_le,
      le_refl, if_true, flush, List.foldl_cons, List.foldl_nil]
  have hll : (promote c p).ll = e :: c.ll.erase e := by
    simp only [promote, h5]; exact moveToFront_of_mem _ _ h6
  have hval : c.valueOf e = c.deref p := by rw [Cache.valueOf, h7]
  have hv : ∀ x, ({ promote c p with a := [] } : Cache).valueOf x = c.valueOf x := by
    intro x
    obtain ⟨_, g2, g3, _⟩ := promote_frame c p
    exact valueOf_congr g2 g3 x
  constructor
  · rw [hstate]
    have : ({ promote c p with a := [] } : Cache).entries =
        (e :: c.ll.erase e).map (fun x => ((c.valueOf x).k, (c.valueOf x).val)) := by
      unfold Cache.entries
      rw [show ({ promote c p with a := [] } : Cache).ll = e :: c.ll.erase e from hll]
      exact List.map_congr_left (fun x _ => by rw [hv])
    rw [this, List.map_cons, hval, h3]
    congr 1
    refine map_erase_eq_filter _ k e c.ll h.nodup_ll h6 (by simp only [hval, h3]) ?_
    intro x hx hxk
    have hn := keys_nodup h
    unfold Cache.keys at hn
    have hek : (c.valueOf e).k = k := by rw [hval, h3]
    exact List.inj_on_of_nodup_map hn hx h6 (hxk.trans hek.symm)
  · rw [hstate]

theorem entries_length (c : Cache) : c.entries.length = c.ll.length := by
  simp [Cache.entries]

theorem refAdd_take (cap : Nat) (l : List (String × String)) (k v : String) (hl : l.length ≤ cap)
    (hk : l.lookup k = none) :
    refAdd cap l k v = (true, ((k, v) :: l).take (nextLen cap 1 l.length)) := by
  unfold refAdd nextLen
  rw [hk]
  simp only
  congr 1
  by_cases h1 : cap < l.length + 1
  · have : l.length = cap := by omega
    rw [if_pos h1, if_pos (by omega), List.dropLast_eq_take]
    simp [this]
  · rw [if_neg h1]
    split
    · rw [List.take_of_length_le (by simp; omega)]
    · rw [List.take_of_length_le (by simp)]

/-- One `Get` or `Add` on a cache with both thresholds 1 does what the
reference cache does. -/
theorem lru_step {hash : String → Nat} {c : Cache} (cp : Nat)
    (hcp : cp < 9223372036854775808) (h : WF hash c)
    (hs : c.listLen = (c.ll.length : Int)) (ha : c.a = []) (hg : c.getThresh = 1)
    (hd : c.delThresh = 1) (hc : c.cap = cp) (hl : c.ll.length ≤ cp) (op : Op)
    (hop : op.isGetOrAdd = true) :
    ∃ c1, step hash c op = some ((refStep cp c.entries op).1, c1) ∧ WF hash c1 ∧
      c1.entries = (refStep cp c.entries op).2 ∧ c1.listLen = (c1.ll.length : Int) ∧
      c1.a = [] ∧ c1.getThresh = 1 ∧ c1.delThresh = 1 ∧ c1.cap = cp ∧ c1.ll.length ≤ cp := by
  cases op with
  | remove k => simp [Op.isGetOrAdd] at hop
  | get k =>
    obtain ⟨f1, f2, f3, f4, f5, f6, f7, f8⟩ := Get_frame hash c k
    have hlook := value?_eq_lookup h k
    have hfst : (Get hash c k).1 = (refGet c.entries k).1 := by
      rw [Get_fst, hlook, refGet]
      cases c.entries.lookup k <;> rfl
    refine ⟨(Get hash c k).2, ?_, WF_Get h k, ?_, ?_, ?_, f5.trans hg, f6.trans hd,
      f4.trans hc, ?_⟩
    · simp only [step, refStep, hfst]
    · cases hget : (c.shards (shardOf hash k)).get k with
      | none =>
        have hn : c.entries.lookup k = none := by
          rw [← hlook, Cache.value?, hget]; rfl
        simp only [refStep, refGet, hn, Get, hget]
      | some p =>
        have hsome : c.entries.lookup k = some (c.deref p).val := by
          rw [← hlook, Cache.value?, hget]; rfl
        simp only [refStep, refGet, hsome]
        exact (Get_hit_immediate h k p hget ha hg).1
    · rw [f7, hs, f8.length_eq]
    · cases hget : (c.shards (shardOf hash k)).get k with
      | none => simp only [Get, hget]; exact ha
      | some p => exact (Get_hit_immediate h k p hget ha hg).2
    · rw [f8.length_eq]; exact hl
  | add k v =>
    have hlook := value?_eq_lookup h k
    by_cases hk : c.has hash k
    · obtain ⟨p, hp⟩ := (has_iff_get hash c k).mp hk
      have hsome : c.entries.lookup k = some (c.deref p).val := by
        rw [← hlook, Cache.value?, hp]; rfl
      refine ⟨c, ?_, h, ?_, hs, ha, hg, hd, hc, hl⟩
      · simp only [step, refStep, refAdd, hsome, Add_present hash c k v hk, Option.map_some']
      · simp only [refStep, refAdd, hsome]
    · have hn : c.entries.lookup k = none := by
        rw [← hlook, Cache.value?, (not_has_iff hash c k).mp hk]; rfl
      obtain ⟨c1, h1, h2, h3, h4, h5, h6, h7, h8, h9⟩ := Add_sync_step h k v hk hs
        (by rw [hc, hd]; omega) (by rw [hc, hd]; omega) (by rw [hd]) (by rw [hd]; decide)
      have href := refAdd_take cp c.entries k v (by rw [entries_length]; exact hl) hn
      rw [entries_length] at href
      rw [hc, hd] at h4 h5
      refine ⟨c1, ?_, h2, ?_, h3, h9.trans ha, h7.trans hg, h8.trans hd, h6.trans hc, ?_⟩
      · simp only [step, refStep, href, h1, Option.map_some']
      · simp only [refStep, href]; exact h5
      · rw [h4, nextLen]; split <;> omega

theorem lru_sim {hash : String → Nat} (cp : Nat) (hcp : cp < 9223372036854775808) :
    ∀ (ops : List Op) (c : Cache), WF hash c → c.listLen = (c.ll.length : Int) → c.a = [] →
      c.getThresh = 1 → c.delThresh = 1 → c.cap = cp → c.ll.length ≤ cp →
      (∀ op ∈ ops, op.isGetOrAdd = true) →
      ∃ c1, run hash c ops = some ((refRun cp c.entries ops).1, c1) ∧ WF hash c1 ∧
        c1.entries = (refRun cp c.entries ops).2 ∧ c1.ll.length ≤ cp := by
  intro ops
  induction ops with
  | nil => intro c h _ _ _ _ _ hl _; exact ⟨c, rfl, h, rfl, hl⟩
  | cons op ops ih =>
    intro c h hs ha hg hd hc hl hops
    obtain ⟨c1, h1, h2, h3, h4, h5, h6, h7, h8, h9⟩ :=
      lru_step cp hcp h hs ha hg hd hc hl op (hops op (List.mem_cons_self _ _))
    obtain ⟨c2, g1, g2, g3, g4⟩ := ih c1 h2 h4 h5 h6 h7 h8 h9
      (fun o ho => hops o (List.mem_cons_of_mem _ ho))
    rw [h3] at g1 g3
    refine ⟨c2, ?_, g2, ?_, g4⟩
    · simp only [run, h1, g1, Option.map_some', refRun]
    · simp only [refRun]; exact g3

/-- With `GetThresh = 1` and `DelThresh = 1` and a capacity below 2^63, where
`int(c.cap)` is the capacity, the cache is an exact LRU cache: every sequence of `Get` and `Add`
calls on a fresh cache runs without panic and returns the results of the
reference strict LRU cache of the same capacity, and afterwards the entries in
recency order are those of the reference, the present keys are the keys of the
reference, and `Len()` does not exceed the capacity. -/
theorem lru_exact (hash : String → Nat) (cp : Nat) (ops : List Op)
    (hcp : cp < 9223372036854775808) (hops : ∀ op ∈ ops, op.isGetOrAdd = true) :
    ∃ c1, run hash (NewCache cp (some ⟨1, 1⟩)) ops = some ((refRun cp [] ops).1, c1) ∧
      c1.entries = (refRun cp [] ops).2 ∧
      (∀ k, c1.has hash k ↔ k ∈ ((refRun cp [] ops).2).map Prod.fst) ∧
      (∀ k, c1.value? hash k = ((refRun cp [] ops).2).lookup k) ∧
      c1.Len = ((refRun cp [] ops).2).length ∧ c1.Len ≤ cp := by
  obtain ⟨c1, h1, h2, h3, h4⟩ := @lru_sim hash cp hcp ops (NewCache cp (some ⟨1, 1⟩))
    (WF_NewCache hash cp _) rfl rfl rfl rfl rfl (Nat.zero_le _) hops
  have he : (NewCache cp (some ⟨1, 1⟩)).entries = [] := rfl
  rw [he] at h1 h3
  refine ⟨c1, h1, h3, ?_, ?_, ?_, h4⟩
  · intro k; rw [has_iff_mem_keys h2, keys_eq_entries, h3]
  · intro k; rw [value?_eq_lookup h2, h3]
  · rw [← h3, entries_length]; rfl

/-- Instance of `lru_exact`: capacity 10, `Add` of `a` to `j`, `Get("a")`, `Add("k")`. -/
theorem lru_exact_witness :
    ∃ c1, run lenHash (NewCache 10 (some ⟨1, 1⟩)) scenarioOps =
        some ((refRun 10 [] scenarioOps).1, c1) ∧
      c1.entries = (refRun 10 [] scenarioOps).2 ∧
      (∀ k, c1.has lenHash k ↔ k ∈ ((refRun 10 [] scenarioOps).2).map Prod.fst) ∧
      (∀ k, c1.value? lenHash k = ((refRun 10 [] scenarioOps).2).lookup k) ∧
      c1.Len = ((refRun 10 [] scenarioOps).2).length ∧ c1.Len ≤ 10 :=
  lru_exact lenHash 10 scenarioOps (by decide) (by decide)

/-- The scenario of the specification on the code: with capacity 10 and both
thresholds 1, after `Add` of `a` to `j` a further `Add("k")` leaves `Len() = 10`
with `a`, the least recently used key, evicted. -/
theorem scenario_evicts_a :
    (run lenHash (NewCache 10 (some ⟨1, 1⟩))
        [Op.add "a" "a", Op.add "b" "b", Op.add "c" "c", Op.add "d" "d", Op.add "e" "e",
          Op.add "f" "f", Op.add "g" "g", Op.add "h" "h", Op.add "i" "i", Op.add "j" "j",
          Op.add "k" "k"]).map (fun r => (r.2.Len, r.2.keys)) =
      some (10, ["k", "j", "i", "h", "g", "f", "e", "d", "c", "b"]) := by
  decide

/-- C9: with thresholds 1 the cache is not an exact LRU cache for every
capacity. Where `int(c.cap)` wraps to a negative number the trimmer evicts
below capacity: on `NewCache(18446744073709551615, {GetThresh: 1, DelThresh: 1})`
the first `Add("a", "a")` makes the trimmer evict two entries of a list of one
and panic, while the reference cache of that capacity stores the entry. -/
theorem lru_huge_capacity_panics :
    (run lenHash (NewCache 18446744073709551615 (some ⟨1, 1⟩)) [Op.add "a" "a"]).isNone = true ∧
    trimAmount (addEntry lenHash (NewCache 18446744073709551615 (some ⟨1, 1⟩)) "a" "a") = 2 ∧
    refRun 18446744073709551615 [] [Op.add "a" "a"] = ([Res.added true], [("a", "a")]) := by
  decide

/-! ### C17: index and ordering agree -/

theorem lookup_of_mem_nodup {β : Type} (m : List (String × β)) (k : String) (b : β)
    (hnd : (m.map Prod.fst).Nodup) (hm : (k, b) ∈ m) : m.lookup k = some b := by
  induction m with
  | nil => simp at hm
  | cons q m ih =>
    obtain ⟨a, b1⟩ := q
    simp only [List.map_cons, List.nodup_cons] at hnd
    by_cases hka : k = a
    · subst hka
      rw [lookup_cons_eq]
      rcases List.mem_cons.mp hm with heq | h
      · rw [(Prod.mk.inj heq).2]
      · exact absurd (List.mem_map_of_mem Prod.fst h) hnd.1
    · rw [lookup_cons_ne hka]
      rcases List.mem_cons.mp hm with heq | h
      · exact absurd (Prod.mk.inj heq).1 hka
      · exact ih hnd.2 h

/-- C17: in every state reached by `Get`, `Add` and `Remove` calls the linked
entries are exactly the entries stored in the shards. No element and no key is
linked twice, `Len()` equals the sum of the shard sizes, the key of every
linked entry maps to that entry in the shard selected by the key's hash mod
128, every shard entry is a linked entry stored under its own key in the shard
of that key, and the keys `Get` finds are the keys of the linked entries. -/
theorem index_ordering_consistent (hash : String → Nat) (c : Cache)
    (hr : Reachable hash c) :
    c.ll.Nodup ∧ c.keys.Nodup ∧ c.Len = c.shardEntries ∧
      (∀ e ∈ c.ll,
        (c.shards (shardOf hash (c.valueOf e).k)).get (c.valueOf e).k =
            some (c.elems.getD e 0) ∧
          (c.valueOf e).listVal = some e) ∧
      (∀ i q, q ∈ (c.shards i).m →
        i = shardOf hash q.1 ∧ (c.deref q.2).k = q.1 ∧
          ∃ e ∈ c.ll, (c.deref q.2).listVal = some e ∧ c.elems.getD e 0 = q.2) ∧
      (∀ k, c.has hash k ↔ k ∈ c.keys) := by
  have h := hr.wf
  refine ⟨h.nodup_ll, keys_nodup h, h.count.symm, ?_, ?_, has_iff_mem_keys h⟩
  · intro e he
    obtain ⟨g1, g2⟩ := h.ll_ok e he
    have := (h.shard_ok _ _ _ g1).1
    rw [← this]
    exact ⟨g1, g2⟩
  · intro i q hq
    have hget : (c.shards i).get q.1 = some q.2 :=
      lookup_of_mem_nodup _ _ _ (h.nodup_keys i) hq
    obtain ⟨h1, _, h3, _, e, h5, h6, h7⟩ := h.shard_ok i q.1 q.2 hget
    exact ⟨h1, h3, e, h6, h5, h7⟩

/-- Instance of C17: the cache that holds `"a"`. -/
theorem index_ordering_consistent_witness :
    demoOne.ll.Nodup ∧ demoOne.keys.Nodup ∧ demoOne.Len = demoOne.shardEntries ∧
      (∀ e ∈ demoOne.ll,
        (demoOne.shards (shardOf lenHash (demoOne.valueOf e).k)).get (demoOne.valueOf e).k =
            some (demoOne.elems.getD e 0) ∧
          (demoOne.valueOf e).listVal = some e) ∧
      (∀ i q, q ∈ (demoOne.shards i).m →
        i = shardOf lenHash q.1 ∧ (demoOne.deref q.2).k = q.1 ∧
          ∃ e ∈ demoOne.ll, (demoOne.deref q.2).listVal = some e ∧
            demoOne.elems.getD e 0 = q.2) ∧
      (∀ k, demoOne.has lenHash k ↔ k ∈ demoOne.keys) :=
  index_ordering_consistent lenHash demoOne demoOne_reachable

/-! ### C18: a flush tolerates stale handles -/

theorem moveToFront_of_not_mem (l : List Nat) (e : Nat) (h : e ∉ l) : MoveToFront l e = l := by
  unfold MoveToFront
  rw [if_neg (fun hc => h hc.1)]

theorem promote_of_stale (c : Cache) (i : Nat)
    (h : ∀ e, (c.deref i).listVal = some e → e ∉ c.ll) : promote c i = c := by
  unfold promote
  cases hl : (c.deref i).listVal with
  | none => rfl
  | some e => simp only [moveToFront_of_not_mem _ _ (h e hl)]

/-- C18: a flush of any buffer in any state only permutes the list: the linked
elements are the same up to order, `Len()`, the shards and the stored values
are unchanged, and an element that is not linked (removed or evicted) is not
linked afterwards; moving a buffered value whose handle is nil or no longer
linked changes nothing at all. -/
theorem flush_only_permutes (c : Cache) (a : List Nat) :
    (flush c a).ll.Perm c.ll ∧ (flush c a).Len = c.Len ∧ (flush c a).shards = c.shards ∧
      (flush c a).heap = c.heap ∧ (flush c a).elems = c.elems ∧
      (flush c a).listLen = c.listLen ∧ (∀ e, e ∉ c.ll → e ∉ (flush c a).ll) ∧
      (∀ i, (∀ e, (c.deref i).listVal = some e → e ∉ c.ll) → promote c i = c) := by
  obtain ⟨h1, h2, h3, _, _, _, _, h8, h9⟩ := flush_frame a c
  exact ⟨h9, h9.length_eq, h1, h2, h3, h8, fun e he hm => he (h9.mem_iff.mp hm),
    promote_of_stale c⟩

/-- C18 on a run: with `GetThresh = 2`, `Get("k")` buffers the entry of `k`, then
`Remove("k")` unlinks it and `Add("k")` links a new entry; the flush triggered
by `Get("x")` leaves the removed entry unlinked and moves only `x` to the front.
The elements are numbered in allocation order: 0 is the removed entry of `k`,
1 the entry of `x`, 2 the new entry of `k`. -/
theorem stale_handle_scenario :
    (run lenHash (NewCache 10 (some ⟨2, 1⟩))
        [Op.add "k" "1", Op.add "x" "2", Op.get "k", Op.remove "k", Op.add "k" "3",
          Op.get "x"]).map (fun r => (r.1, r.2.ll, r.2.entries, r.2.a)) =
      some ([Res.added true, Res.added true, Res.got "1" true, Res.removed true,
          Res.added true, Res.got "2" true],
        [1, 2], [("x", "2"), ("k", "3")], []) := by
  decide

/-! ### C16: the coalescer step -/

theorem dedup_concat (F : List Nat) (x : Nat) :
    (F ++ [x]).dedup = F.dedup.filter (fun e => decide (e ≠ x)) ++ [x] := by
  induction F with
  | nil => simp
  | cons a F ih =>
    by_cases hax : a = x
    · subst hax
      have h1 : a ∈ F ++ [a] := by simp
      rw [List.cons_append, List.dedup_cons_of_mem h1, ih]
      by_cases haF : a ∈ F
      · rw [List.dedup_cons_of_mem haF]
      · rw [List.dedup_cons_of_not_mem haF]
        simp [List.filter_cons]
    · by_cases haF : a ∈ F
      · have h1 : a ∈ F ++ [x] := by simp [haF]
        rw [List.cons_append, List.dedup_cons_of_mem h1, ih, List.dedup_cons_of_mem haF]
      · have h1 : a ∉ F ++ [x] := by simp [haF, hax]
        rw [List.cons_append, List.dedup_cons_of_not_mem h1, ih,
          List.dedup_cons_of_not_mem haF]
        simp [List.filter_cons, hax]

theorem foldl_moveToFront_perm (es : List Nat) : ∀ l : List Nat,
    (es.foldl MoveToFront l).Perm l := by
  induction es with
  | nil => intro l; exact List.Perm.refl _
  | cons x es ih => intro l; exact (ih _).trans (moveToFront_perm l x)

/-- A batch of `MoveToFront` calls on a list without duplicates. -/
theorem foldl_moveToFront (l : List Nat) (hnd : l.Nodup) (es : List Nat) :
    es.foldl MoveToFront l = promoted l es ++ l.filter (fun e => decide (e ∉ es)) := by
  induction es using List.reverseRecOn with
  | nil => simp [promoted]
  | append_singleton es x ih =>
    rw [List.foldl_append, List.foldl_cons, List.foldl_nil, ih]
    have hperm : (promoted l es ++ l.filter (fun e => decide (e ∉ es))).Perm l := by
      rw [← ih]; exact foldl_moveToFront_perm es l
    by_cases hx : x ∈ l
    · have hmem : x ∈ promoted l es ++ l.filter (fun e => decide (e ∉ es)) :=
        hperm.mem_iff.mpr hx
      have hnd1 := hperm.nodup_iff.mpr hnd
      rw [moveToFront_of_mem _ _ hmem, List.Nodup.erase_eq_filter hnd1]
      have hP : promoted l (es ++ [x]) =
          x :: (promoted l es).filter (fun e => e != x) := by
        unfold promoted
        rw [List.filter_append]
        have : List.filter (fun e => decide (e ∈ l)) [x] = [x] := by simp [hx]
        rw [this, dedup_concat, List.reverse_append, List.reverse_singleton,
          List.singleton_append, List.filter_reverse]
        congr 2
        apply List.filter_congr
        intro e _
        by_cases h : e = x <;> simp [h]
      have hR : l.filter (fun e => decide (e ∉ es ++ [x])) =
          (l.filter (fun e => decide (e ∉ es))).filter (fun e => e != x) := by
        rw [List.filter_filter]
        apply List.filter_congr
        intro e _
        by_cases h : e = x <;> simp [h]
      rw [hP, hR, List.filter_append, List.cons_append]
    · have hnot : x ∉ promoted l es ++ l.filter (fun e => decide (e ∉ es)) :=
        fun h => hx (hperm.mem_iff.mp h)
      rw [moveToFront_of_not_mem _ _ hnot]
      have hP : promoted l (es ++ [x]) = promoted l es := by
        unfold promoted
        rw [List.filter_append]
        have : List.filter (fun e => decide (e ∈ l)) [x] = [] := by simp [hx]
        rw [this, List.append_nil]
      have hR : l.filter (fun e => decide (e ∉ es ++ [x])) =
          l.filter (fun e => decide (e ∉ es)) := by
        apply List.filter_congr
        intro e he
        have : e ≠ x := fun h => hx (h ▸ he)
        simp [this]
      rw [hP, hR]

theorem handles_congr {c c1 : Cache} (hh : c1.heap = c.heap) (a : List Nat) :
    c1.handles a = c.handles a := by
  simp [Cache.handles, Cache.deref, hh]

theorem promote_ll (c : Cache) (i : Nat) :
    (promote c i).ll = (c.handles [i]).foldl MoveToFront c.ll := by
  unfold promote Cache.handles
  cases h : (c.deref i).listVal <;> simp [h]

theorem flush_ll (a : List Nat) : ∀ c : Cache,
    (flush c a).ll = (c.handles a).foldl MoveToFront c.ll := by
  induction a with
  | nil => intro c; rfl
  | cons i a ih =>
    intro c
    have hstep : flush c (i :: a) = flush (promote c i) a := rfl
    have hh : (promote c i).heap = c.heap := (promote_frame c i).2.1
    have hsplit : c.handles (i :: a) = c.handles [i] ++ c.handles a := by
      simp [Cache.handles, List.filterMap_cons]
      cases (c.deref i).listVal <;> simp
    rw [hstep, ih, handles_congr hh, promote_ll, hsplit, List.foldl_append]

/-- C16: one step of the coalescer in a reachable state. A `Get` hit sends the
value it found and returns without waiting for more; the step appends the
value to the buffer; while the buffer is shorter than `getThresh` nothing else
changes, so the list is exactly as it was; once the buffer has reached
`getThresh` the step moves the buffered values to the front one by one in
arrival order, skipping nil handles, so that the list then starts with the
distinct linked buffered elements, the most recently accessed first, followed
by all other elements in their previous order, and the buffer is empty. -/
theorem coalescer_step (hash : String → Nat) (c : Cache) (v : Nat) (hr : Reachable hash c) :
    (∀ k, (c.shards (shardOf hash k)).get k = some v →
      Get hash c k = (((c.deref v).val, true), shedGetStep c v)) ∧
    ((c.a ++ [v]).length < c.getThresh → shedGetStep c v = { c with a := c.a ++ [v] }) ∧
    (c.getThresh ≤ (c.a ++ [v]).length →
      (shedGetStep c v).a = [] ∧
      (shedGetStep c v).ll = (c.handles (c.a ++ [v])).foldl MoveToFront c.ll ∧
      (shedGetStep c v).ll = promoted c.ll (c.handles (c.a ++ [v])) ++
        c.ll.filter (fun e => decide (e ∉ c.handles (c.a ++ [v]))) ∧
      (shedGetStep c v).shards = c.shards ∧ (shedGetStep c v).heap = c.heap ∧
      (shedGetStep c v).listLen = c.listLen) := by
  refine ⟨?_, ?_, ?_⟩
  · intro k hk
    simp only [Get, hk]
  · intro hlt
    unfold shedGetStep
    simp only
    rw [if_neg (by omega)]
  · intro hge
    have hstate : shedGetStep c v = { flush c (c.a ++ [v]) with a := [] } := by
      unfold shedGetStep
      simp only
      rw [if_pos hge]
    have hll : (shedGetStep c v).ll = (flush c (c.a ++ [v])).ll := by rw [hstate]
    obtain ⟨h1, h2, _, _, _, _, h7, _⟩ := shedGetStep_frame c v
    refine ⟨by rw [hstate], ?_, ?_, h1, h2, h7⟩
    · rw [hll, flush_ll]
    · rw [hll, flush_ll, foldl_moveToFront _ hr.wf.nodup_ll]

/-- Instance of C16: a value received by the cache that holds `"a"`. -/
theorem coalescer_step_witness :
    (∀ k, (demoOne.shards (shardOf lenHash k)).get k = some 0 →
      Get lenHash demoOne k = (((demoOne.deref 0).val, true), shedGetStep demoOne 0)) ∧
    ((demoOne.a ++ [0]).length < demoOne.getThresh →
      shedGetStep demoOne 0 = { demoOne with a := demoOne.a ++ [0] }) ∧
    (demoOne.getThresh ≤ (demoOne.a ++ [0]).length →
      (shedGetStep demoOne 0).a = [] ∧
      (shedGetStep demoOne 0).ll = (demoOne.handles (demoOne.a ++ [0])).foldl MoveToFront
        demoOne.ll ∧
      (shedGetStep demoOne 0).ll = promoted demoOne.ll (demoOne.handles (demoOne.a ++ [0])) ++
        demoOne.ll.filter (fun e => decide (e ∉ demoOne.handles (demoOne.a ++ [0]))) ∧
      (shedGetStep demoOne 0).shards = demoOne.shards ∧
      (shedGetStep demoOne 0).heap = demoOne.heap ∧
      (shedGetStep demoOne 0).listLen = demoOne.listLen) :=
  coalescer_step lenHash demoOne 0 demoOne_reachable

/-- C16 on a run: with `GetThresh = 3`, after `Add` of `a`, `b`, `c`, `d` the
calls `Get("b")`, `Get("a")` leave the list as it was, and the third call
`Get("b")` flushes the buffer: `b`, accessed last, is first, then `a`, then the
entries that were not accessed in their previous order. -/
theorem coalescer_scenario :
    (run lenHash (NewCache 10 (some ⟨3, 1⟩))
        [Op.add "a" "1", Op.add "b" "2", Op.add "c" "3", Op.add "d" "4", Op.get "b",
          Op.get "a"]).map (fun r => (r.2.keys, r.2.a)) = some (["d", "c", "b", "a"], [1, 0]) ∧
    (run lenHash (NewCache 10 (some ⟨3, 1⟩))
        [Op.add "a" "1", Op.add "b" "2", Op.add "c" "3", Op.add "d" "4", Op.get "b",
          Op.get "a", Op.get "b"]).map (fun r => (r.2.keys, r.2.a)) =
      some (["b", "a", "d", "c"], []) := by
  decide

/-! ### C15: the trimmer step -/

theorem trimLoopTrace_snd : ∀ (n : Nat) (c : Cache),
    (trimLoopTrace n c).map Prod.snd = trimLoop n c := by
  intro n
  induction n with
  | zero => intro c; rfl
  | succ n ih =>
    intro c
    unfold trimLoopTrace trimLoop
    cases Back c.ll with
    | none => rfl
    | some e =>
      simp only [Option.map_map]
      exact ih _

theorem trimLoopTrace_succ (n : Nat) (c : Cache) (l : List Nat) (e : Nat) (h : c.ll = l ++ [e]) :
    trimLoopTrace (n + 1) c =
      (trimLoopTrace n (unlink c (c.valueOf e).sh (c.valueOf e).k e)).map
        (fun r => (e :: r.1, r.2)) := by
  simp [trimLoopTrace, Back, h, List.getLast?_concat, unlink]

theorem trimLoopTrace_fst {hash : String → Nat} : ∀ (n : Nat) (c : Cache), WF hash c →
    n ≤ c.ll.length → (trimLoopTrace n c).map Prod.fst = some (c.ll.reverse.take n) := by
  intro n
  induction n with
  | zero => intro c _ _; simp [trimLoopTrace]
  | succ n ih =>
    intro c h hn
    have hne : c.ll ≠ [] := by
      intro h0; rw [h0] at hn; simp at hn
    obtain ⟨e, he⟩ : ∃ e, c.ll.getLast? = some e := by
      cases hl : c.ll.getLast? with
      | none => exact absurd (List.getLast?_eq_none_iff.mp hl) hne
      | some e => exact ⟨e, rfl⟩
    obtain ⟨l, hl⟩ := List.getLast?_eq_some_iff.mp he
    have hmem : e ∈ c.ll := by rw [hl]; simp
    have hnot : e ∉ l := by
      have := h.nodup_ll
      rw [hl] at this
      have := (List.nodup_append.mp this).2.2
      intro hm
      exact this hm (List.mem_singleton_self e)
    obtain ⟨g1, g2⟩ := h.ll_ok e hmem
    have hwf := WF_unlink h g1 g2
    have hll : (unlink c (c.valueOf e).sh (c.valueOf e).k e).ll = l := by
      simp only [unlink, listRemove, hl]; exact erase_concat_self l e hnot
    have hlen : c.ll.length = l.length + 1 := by rw [hl]; simp
    have := ih _ hwf (by rw [hll]; omega)
    rw [hll] at this
    rw [trimLoopTrace_succ n c l e hl, Option.map_map]
    have h2 : (Prod.fst ∘ fun r : List Nat × Cache => (e :: r.1, r.2)) =
        (fun x => e :: x) ∘ Prod.fst := rfl
    rw [h2, ← Option.map_map, this, hl]
    simp

/-- What a successful trimmer step does to the shards: the keys of the elements
it unlinked are gone, every other key is as it was. -/
theorem trimStep_shards {hash : String → Nat} {c c1 : Cache} (h : WF hash c)
    (hs : trimStep c = some c1) :
    (∀ e ∈ c.ll, e ∉ c1.ll → (c1.shards (c.valueOf e).sh).get (c.valueOf e).k = none) ∧
    (∀ j k, (∀ e ∈ c.ll, e ∉ c1.ll → (c.valueOf e).k ≠ k) →
      (c1.shards j).get k = (c.shards j).get k) := by
  have hn : trimAmount c ≤ c.ll.length := by
    by_contra hlt
    rw [trimStep_fail h (by omega)] at hs
    exact Option.noConfusion hs
  obtain ⟨c2, h1, h2, h3, h4, h5, _, _, _, _, _, h11⟩ := trimStep_ok h hn
  rw [h1] at hs
  obtain rfl : c2 = c1 := Option.some.inj hs
  have hv : ∀ e, c2.valueOf e = c.valueOf e := fun e => valueOf_congr h4 h5 e
  have hd : ∀ p, c2.deref p = c.deref p := fun p => by simp [Cache.deref, h4]
  constructor
  · intro e he hne
    cases hg : (c2.shards (c.valueOf e).sh).get (c.valueOf e).k with
    | none => rfl
    | some p =>
      exfalso
      have hc := h11 _ _ _ hg
      obtain ⟨g1, g2⟩ := h.ll_ok e he
      have hp : p = c.elems.getD e 0 := Option.some.inj (hc.symm.trans g1)
      obtain ⟨_, _, _, _, e1, k1, k2, _⟩ := h2.shard_ok _ _ _ hg
      rw [hd, hp] at k1
      have : (c.valueOf e).listVal = some e1 := k1
      rw [g2] at this
      exact hne (Option.some.inj this ▸ k2)
  · intro j k hk
    cases hg : (c.shards j).get k with
    | none =>
      cases hg1 : (c2.shards j).get k with
      | none => rfl
      | some p => rw [h11 _ _ _ hg1] at hg; exact Option.noConfusion hg
    | some p =>
      obtain ⟨_, _, k3, k4, e, k5, k6, k7⟩ := h.shard_ok _ _ _ hg
      have hve : c.valueOf e = c.deref p := by rw [Cache.valueOf, k7]
      have hin : e ∈ c2.ll := by
        by_contra hne
        exact hk e k6 hne (by rw [hve, k3])
      have := (h2.ll_ok e hin).1
      rw [hv, hve, k4, k3, h5, k7] at this
      exact this

theorem demoTwo_reachable : Reachable lenHash demoTwo :=
  Reachable.add "b" "2" (Reachable.add "a" "1" (Reachable.new 2 (some ⟨1, 1⟩)) (by rfl)) (by rfl)

theorem mem_reverse_take {l : List Nat} (n : Nat) (hnd : l.Nodup) (e : Nat) :
    e ∈ l.reverse.take n ↔ e ∈ l ∧ e ∉ l.take (l.length - n) := by
  rw [List.take_reverse, List.mem_reverse]
  have hsplit := List.take_append_drop (l.length - n) l
  have hnd2 : (l.take (l.length - n) ++ l.drop (l.length - n)).Nodup := by rw [hsplit]; exact hnd
  have hdis := (List.nodup_append.mp hnd2).2.2
  constructor
  · intro he
    exact ⟨List.mem_of_mem_drop he, fun ht => hdis ht he⟩
  · rintro ⟨he, hne⟩
    rw [← hsplit] at he
    rcases List.mem_append.mp he with h1 | h1
    · exact absurd h1 hne
    · exact h1

/-- The trimmer step in a consistent state whose counter, capacity and
threshold are in the range where the 64-bit arithmetic is exact.
The step first increments the counter by one; with `d = counter - capacity`,
if `d < delThresh - 1` nothing else changes; if `d >= delThresh - 1` and the
list holds at least `d` entries, the loop removes exactly the `d` entries at
the tail in tail-to-head order, their keys are deleted from their shards,
every other shard entry and the order of the remaining entries are as before,
and the counter is reduced by `d`, which leaves it equal to the capacity; if
the list holds fewer than `d` entries the step panics. -/
theorem trimmer_step (hash : String → Nat) (c : Cache) (h : WF hash c)
    (h0 : 0 ≤ c.listLen) (h1 : c.listLen + 1 < 9223372036854775808)
    (hcap : c.cap < 9223372036854775808) (hd1 : 1 ≤ c.delThresh)
    (hd2 : c.delThresh < 9223372036854775808) :
    trimCount c = c.listLen + 1 ∧
    trimExcess c = c.listLen + 1 - (c.cap : Int) ∧
    (trimFires c ↔ (c.delThresh : Int) - 1 ≤ trimExcess c) ∧
    (¬ trimFires c → trimStep c = some { c with listLen := c.listLen + 1 }) ∧
    (trimFires c → 0 ≤ trimExcess c) ∧
    (trimFires c → (trimExcess c).toNat ≤ c.Len →
      ∃ c1, trimStep c = some c1 ∧
        trimLoopTrace (trimExcess c).toNat { c with listLen := c.listLen + 1 } =
          some (c.ll.reverse.take (trimExcess c).toNat, { c1 with listLen := c.listLen + 1 }) ∧
        c1.ll = c.ll.take (c.Len - (trimExcess c).toNat) ∧
        c1.entries = c.entries.take (c.Len - (trimExcess c).toNat) ∧
        (∀ e ∈ c.ll.reverse.take (trimExcess c).toNat,
          (c1.shards (shardOf hash (c.valueOf e).k)).get (c.valueOf e).k = none) ∧
        (∀ j k, (∀ e ∈ c.ll.reverse.take (trimExcess c).toNat, (c.valueOf e).k ≠ k) →
          (c1.shards j).get k = (c.shards j).get k) ∧
        c1.listLen = c.listLen + 1 - trimExcess c ∧ c1.listLen = (c.cap : Int) ∧
        c1.heap = c.heap ∧ c1.elems = c.elems ∧ c1.a = c.a ∧ c1.cap = c.cap ∧
        c1.getThresh = c.getThresh ∧ c1.delThresh = c.delThresh) ∧
    (trimFires c → c.Len < (trimExcess c).toNat → trimStep c = none) := by
  have e1 : trimCount c = c.listLen + 1 := by
    rw [trimCount]; exact wrapInt_of_range _ (by omega) (by omega)
  have e2 : trimExcess c = c.listLen + 1 - (c.cap : Int) := by
    rw [trimExcess, e1, toInt_of_lt _ hcap]; exact wrapInt_of_range _ (by omega) (by omega)
  have e3 : wrapInt (toInt c.delThresh - 1) = (c.delThresh : Int) - 1 := by
    rw [toInt_of_lt _ hd2]; exact wrapInt_of_range _ (by omega) (by omega)
  have e4 : trimFires c ↔ (c.delThresh : Int) - 1 ≤ trimExcess c := by
    rw [trimFires, e3]
  have e5 : trimFires c → 0 ≤ trimExcess c := fun hf => by
    have := e4.mp hf; omega
  refine ⟨e1, e2, e4, ?_, e5, ?_, ?_⟩
  · intro hf
    unfold trimStep
    rw [if_neg hf, e1]
  · intro hf hle
    have hamt : trimAmount c = (trimExcess c).toNat := by rw [trimAmount, if_pos hf]
    have hle1 : trimAmount c ≤ c.ll.length := by rw [hamt]; exact hle
    obtain ⟨c1, g1, g2, g3, g4, g5, g6, g7, g8, g9, g10, _⟩ := trimStep_ok h hle1
    rw [if_pos hf, e1] at g10
    have g10a : c1.listLen = c.listLen + 1 - trimExcess c :=
      g10.trans (wrapInt_of_range _ (by omega) (by omega))
    obtain ⟨s1, s2⟩ := trimStep_shards h g1
    rw [hamt] at g3
    have hmem := fun e => mem_reverse_take (trimExcess c).toNat h.nodup_ll e
    have hsh : ∀ e ∈ c.ll, (c.valueOf e).sh = shardOf hash (c.valueOf e).k := fun e he =>
      (h.shard_ok _ _ _ (h.ll_ok e he).1).1
    refine ⟨c1, g1, ?_, g3, entries_take g4 g5 _ g3, ?_, ?_, g10a, ?_, g4, g5, g9, g6, g7, g8⟩
    · have hsnd := trimLoopTrace_snd (trimExcess c).toNat { c with listLen := c.listLen + 1 }
      have hfst := @trimLoopTrace_fst hash (trimExcess c).toNat { c with listLen := c.listLen + 1 }
        (WF_setListLen h _) hle
      have hstep : trimStep c = (trimLoop (trimExcess c).toNat
          { c with listLen := c.listLen + 1 }).map
          (fun c2 => { c2 with listLen := wrapInt (c2.listLen - trimExcess c) }) := by
        unfold trimStep
        rw [if_pos hf, e1]
      obtain ⟨c2, k1, _, _, _, _, _, _, _, _, k10, _⟩ :=
        trimLoop_ok (trimExcess c).toNat { c with listLen := c.listLen + 1 }
          (WF_setListLen h (c.listLen + 1)) hle
      rw [k1, g1] at hstep
      have hc1 : c1 = { c2 with listLen := wrapInt (c2.listLen - trimExcess c) } :=
        Option.some.inj hstep
      have hc2 : ({ c1 with listLen := c.listLen + 1 } : Cache) = c2 := by
        rw [hc1]
        have : c2.listLen = c.listLen + 1 := k10
        rw [← this]
      rw [hc2]
      cases ht : trimLoopTrace (trimExcess c).toNat { c with listLen := c.listLen + 1 } with
      | none => rw [ht] at hfst; exact Option.noConfusion hfst
      | some r =>
        rw [ht] at hfst hsnd
        rw [k1] at hsnd
        have a1 : r.1 = c.ll.reverse.take (trimExcess c).toNat := Option.some.inj hfst
        have a2 : r.2 = c2 := Option.some.inj hsnd
        rw [← a1, ← a2]
    · intro e he
      obtain ⟨m1, m2⟩ := (hmem e).mp he
      rw [← hsh e m1]
      exact s1 e m1 (by rw [g3]; exact m2)
    · intro j k hk
      exact s2 j k (fun e m1 m2 => hk e ((hmem e).mpr ⟨m1, by rw [← g3]; exact m2⟩))
    · rw [g10a, e2]; omega
  · intro hf hlt
    exact trimStep_fail h (by rw [trimAmount, if_pos hf]; exact hlt)

/-- Instance of `trimmer_step`: the step the trimmer takes for `Add("c", "3")` on a cache of
capacity 2 with `DelThresh = 1` that holds `a` and `b`. -/
theorem trimmer_step_witness :
    WF lenHash demoPending ∧ 0 ≤ demoPending.listLen ∧
    demoPending.listLen + 1 < 9223372036854775808 ∧ demoPending.cap < 9223372036854775808 ∧
    1 ≤ demoPending.delThresh ∧ demoPending.delThresh < 9223372036854775808 ∧
    (trimCount demoPending = demoPending.listLen + 1 ∧
    trimExcess demoPending = demoPending.listLen + 1 - (demoPending.cap : Int) ∧
    (trimFires demoPending ↔ (demoPending.delThresh : Int) - 1 ≤ trimExcess demoPending) ∧
    (¬ trimFires demoPending →
      trimStep demoPending = some { demoPending with listLen := demoPending.listLen + 1 }) ∧
    (trimFires demoPending → 0 ≤ trimExcess demoPending) ∧
    (trimFires demoPending → (trimExcess demoPending).toNat ≤ demoPending.Len →
      ∃ c1, trimStep demoPending = some c1 ∧
        trimLoopTrace (trimExcess demoPending).toNat
            { demoPending with listLen := demoPending.listLen + 1 } =
          some (demoPending.ll.reverse.take (trimExcess demoPending).toNat,
            { c1 with listLen := demoPending.listLen + 1 }) ∧
        c1.ll = demoPending.ll.take (demoPending.Len - (trimExcess demoPending).toNat) ∧
        c1.entries =
          demoPending.entries.take (demoPending.Len - (trimExcess demoPending).toNat) ∧
        (∀ e ∈ demoPending.ll.reverse.take (trimExcess demoPending).toNat,
          (c1.shards (shardOf lenHash (demoPending.valueOf e).k)).get
            (demoPending.valueOf e).k = none) ∧
        (∀ j k, (∀ e ∈ demoPending.ll.reverse.take (trimExcess demoPending).toNat,
            (demoPending.valueOf e).k ≠ k) →
          (c1.shards j).get k = (demoPending.shards j).get k) ∧
        c1.listLen = demoPending.listLen + 1 - trimExcess demoPending ∧
        c1.listLen = (demoPending.cap : Int) ∧
        c1.heap = demoPending.heap ∧ c1.elems = demoPending.elems ∧ c1.a = demoPending.a ∧
        c1.cap = demoPending.cap ∧ c1.getThresh = demoPending.getThresh ∧
        c1.delThresh = demoPending.delThresh) ∧
    (trimFires demoPending → demoPending.Len < (trimExcess demoPending).toNat →
      trimStep demoPending = none)) :=
  ⟨WF_addEntry demoTwo_reachable.wf "c" "3" (by decide), by decide, by decide, by decide,
    by decide, by decide,
    trimmer_step lenHash demoPending (WF_addEntry demoTwo_reachable.wf "c" "3" (by decide))
      (by decide) (by decide) (by decide) (by decide) (by decide)⟩

/-- The trimmer step on a run: in `demoPending` the counter is 2 and the list holds `c`, `b`,
`a`; the step counts 3, finds `d = 1 >= delThresh - 1 = 0`, removes the tail
entry `a` and its key, and leaves the counter at the capacity 2. -/
theorem trimmer_step_scenario :
    (demoPending.listLen, demoPending.cap, demoPending.delThresh, demoPending.keys) =
      (2, 2, 1, ["c", "b", "a"]) ∧
    trimExcess demoPending = 1 ∧
    (trimLoopTrace 1 { demoPending with listLen := 3 }).map (fun r => r.1) = some [0] ∧
    (demoPending.valueOf 0).k = "a" ∧
    (trimStep demoPending).map
        (fun c1 => (c1.listLen, c1.keys, decide (c1.has lenHash "a"),
          decide (c1.has lenHash "b"), decide (c1.has lenHash "c"))) =
      some (2, ["c", "b"], false, true, true) := by
  decide

/-- C15: the trimmer step does not always remove the `d` entries at the tail,
since `Remove` leaves the counter as it is and the list can hold fewer than `d`
entries. On `NewCache(0, {GetThresh: 1, DelThresh: 3})`, after `Add("a")` and
`Remove("a")` the counter is 1 and the list is empty; `Add("b")` links one
entry, the step counts 2 and decides to trim `d = 2 >= delThresh - 1` entries,
and panics when it removes the second one from the empty list. -/
theorem trimmer_step_short_list :
    (run lenHash (NewCache 0 (some ⟨1, 3⟩)) [Op.add "a" "1", Op.remove "a"]).map
        (fun r => (r.1, r.2.listLen, r.2.Len)) =
      some ([Res.added true, Res.removed true], 1, 0) ∧
    (run lenHash (NewCache 0 (some ⟨1, 3⟩)) [Op.add "a" "1", Op.remove "a"]).map
        (fun r => (decide (trimFires (addEntry lenHash r.2 "b" "2")),
          trimExcess (addEntry lenHash r.2 "b" "2"), (addEntry lenHash r.2 "b" "2").Len,
          (trimStep (addEntry lenHash r.2 "b" "2")).isSome)) =
      some (true, 2, 1, false) := by
  decide

/-! ### C11: thresholds 0 select the defaults -/

set_option maxRecDepth 100000 in
/-- C11: a config with both thresholds 0 does not give immediate updates, since
`NewCache` takes 0 for "use the default". `NewCache(10, {0, 0})` is
`NewCache(10, nil)` with `getThresh = 2` and `delThresh = 2`: after `Add("a")`,
`Add("b")` the hit `Get("a")` leaves `b` in front of `a` and the access in the
buffer, where thresholds 1 move `a` to the front. `NewCache(100, {0, 0})` has
`delThresh = 3`: the 101st `Add` of a new key takes `Len()` to 101 and evicts
nothing. -/
theorem zero_thresholds_use_defaults :
    NewCache 10 (some ⟨0, 0⟩) = NewCache 10 none ∧
    ((NewCache 10 (some ⟨0, 0⟩)).getThresh, (NewCache 10 (some ⟨0, 0⟩)).delThresh) = (2, 2) ∧
    (run lenHash (NewCache 10 (some ⟨0, 0⟩)) [Op.add "a" "1", Op.add "b" "2", Op.get "a"]).map
        (fun r => (r.1, r.2.keys, r.2.a)) =
      some ([Res.added true, Res.added true, Res.got "1" true], ["b", "a"], [0]) ∧
    (run lenHash (NewCache 10 (some ⟨1, 1⟩)) [Op.add "a" "1", Op.add "b" "2", Op.get "a"]).map
        (fun r => (r.1, r.2.keys, r.2.a)) =
      some ([Res.added true, Res.added true, Res.got "1" true], ["a", "b"], []) ∧
    (addAll lenHash (NewCache 100 (some ⟨0, 0⟩)) (sampleKeys 101)).map
        (fun r => (r.1.all id, r.2.cap, r.2.delThresh, r.2.Len)) =
      some (true, 100, 3, 101) := by
  refine ⟨rfl, by decide, by decide, by decide, by decide⟩

/-! ### C12 and C14: `Remove` leaves the counter of the trimmer as it is -/

/-- C12: the trimmer evicts while `Len()` is not above the capacity. On
`NewCache(1, nil)` (capacity 1, `delThresh = 2`) `Add("a")` and `Remove("a")`
leave the list empty and the counter at 1; `Add("k")` links one entry, so
`Len() = 1 = capacity`, and the trimmer counts 2, finds `d = 1 >= delThresh - 1`
and evicts that entry: `Len()` is 0 and `Get("k")` finds nothing. -/
theorem evicts_at_capacity :
    ((NewCache 1 none).cap, (NewCache 1 none).delThresh) = (1, 2) ∧
    (run lenHash (NewCache 1 none) [Op.add "a" "1", Op.remove "a"]).map
        (fun r => (r.1, r.2.Len, r.2.listLen, (addEntry lenHash r.2 "k" "2").Len,
          trimAmount (addEntry lenHash r.2 "k" "2"))) =
      some ([Res.added true, Res.removed true], 0, 1, 1, 1) ∧
    (run lenHash (NewCache 1 none)
        [Op.add "a" "1", Op.remove "a", Op.add "k" "2", Op.get "k"]).map
        (fun r => (r.1, r.2.Len)) =
      some ([Res.added true, Res.removed true, Res.added true, Res.got "" false], 0) := by
  decide

/-- C14: the trimmer removes from an empty list. On
`NewCache(1, {GetThresh: 1, DelThresh: 3})` the calls `Add("a")`, `Add("b")`,
`Remove("a")`, `Remove("b")` leave the list empty and the counter at 2;
`Add("k")` links one entry, the trimmer counts 3 and decides to trim
`d = 2 >= delThresh - 1` entries of a list that holds one: the second
`c.ll.Remove(c.ll.Back())` panics. -/
theorem trim_on_empty_list_panics :
    (run lenHash (NewCache 1 (some ⟨1, 3⟩))
        [Op.add "a" "1", Op.add "b" "2", Op.remove "a", Op.remove "b"]).map
        (fun r => (r.1, r.2.Len, r.2.listLen, (addEntry lenHash r.2 "k" "3").Len,
          trimAmount (addEntry lenHash r.2 "k" "3"))) =
      some ([Res.added true, Res.added true, Res.removed true, Res.removed true], 0, 2, 1, 2) ∧
    (run lenHash (NewCache 1 (some ⟨1, 3⟩))
        [Op.add "a" "1", Op.add "b" "2", Op.remove "a", Op.remove "b",
          Op.add "k" "3"]).isNone = true := by
  decide

/-! ### C13: the window between `shard.set` and `setList` -/

/-- The steps of `Add` for an absent key compose to `addEntry`. -/
theorem addEntry_steps (hash : String → Nat) (c : Cache) (k v : String) :
    addEntry hash c k v =
      setList (addLink hash c k v) c.heap.length
        (PushFront (addPublish hash c k v) c.heap.length).1 := rfl

theorem addPublish_get (hash : String → Nat) (c : Cache) (k v : String) :
    ((addPublish hash c k v).shards (shardOf hash k)).get k = some c.heap.length := by
  simp [addPublish, shard_get_set]

theorem addPublish_deref (hash : String → Nat) (c : Cache) (k v : String) :
    (addPublish hash c k v).deref c.heap.length = ⟨k, v, none, shardOf hash k⟩ :=
  getD_append_length _ _ _

/-- C13: a partially constructed entry is acted on. In the state `Add(k, v)`
reaches after `shard.set` (the entry is in its shard, not linked, `listVal`
nil), and in the state after `PushFront` and before `setList` (linked,
`listVal` still nil), a `Remove(k)` finds the entry, reads the nil `listVal`
and panics in `c.ll.Remove(nil)`; a `Get(k)` returns the value and hands the
entry to the coalescer, whose batch reads the nil `listVal` and skips it. -/
theorem partial_entry_is_acted_on (hash : String → Nat) (c : Cache) (k v : String) :
    addEntry hash c k v =
      setList (addLink hash c k v) c.heap.length
        (PushFront (addPublish hash c k v) c.heap.length).1 ∧
    ((addPublish hash c k v).shards (shardOf hash k)).get k = some c.heap.length ∧
    ((addPublish hash c k v).deref c.heap.length).listVal = none ∧
    (addPublish hash c k v).ll = c.ll ∧
    ((addLink hash c k v).deref c.heap.length).listVal = none ∧
    (addLink hash c k v).ll = c.elems.length :: c.ll ∧
    Remove hash (addPublish hash c k v) k = none ∧
    Remove hash (addLink hash c k v) k = none ∧
    Get hash (addPublish hash c k v) k =
      ((v, true), shedGetStep (addPublish hash c k v) c.heap.length) ∧
    promote (addPublish hash c k v) c.heap.length = addPublish hash c k v ∧
    promote (addLink hash c k v) c.heap.length = addLink hash c k v := by
  have h1 := addPublish_get hash c k v
  have h2 := addPublish_deref hash c k v
  have h3 : ((addLink hash c k v).shards (shardOf hash k)).get k = some c.heap.length := h1
  have h4 : (addLink hash c k v).deref c.heap.length = ⟨k, v, none, shardOf hash k⟩ := h2
  refine ⟨rfl, h1, by rw [h2], rfl, by rw [h4], rfl, ?_, ?_, ?_, ?_, ?_⟩
  · simp only [Remove, h1, h2]
  · simp only [Remove, h3, h4]
  · simp only [Get, h1, h2]
  · simp only [promote, h2]
  · simp only [promote, h4]

/-- C13 on a run: `Add("k", "1")` on a fresh cache, interrupted after its
`shard.set`, followed by `Remove("k")` of another goroutine. -/
theorem partial_entry_scenario :
    (Remove lenHash (addPublish lenHash (NewCache 10 none) "k" "1") "k").isNone = true ∧
    (Remove lenHash (addLink lenHash (NewCache 10 none) "k" "1") "k").isNone = true ∧
    (Remove lenHash (addEntry lenHash (NewCache 10 none) "k" "1") "k").map
      (fun r => (r.1, r.2.Len)) = some (true, 0) := by
  decide

/-! ### C19 and C20: the counter of the trimmer -/

theorem removes_cons (r : Res) (rs : List Res) :
    removes (r :: rs) = removes [r] + removes rs := by
  unfold removes
  rw [List.count_cons, List.count_cons, List.count_nil]
  omega

/-- What one call does to the counter of the trimmer and to the length of the
list: a `Get`, an `Add` of a present key and a `Remove` of an absent key leave
both as they are; a `Remove` of a present key unlinks one entry; an `Add` of an
absent key links one entry and runs the trimmer step on that state. -/
theorem step_cases {hash : String → Nat} {c : Cache} (h : WF hash c) (op : Op) (res : Res)
    (c1 : Cache) (hs : step hash c op = some (res, c1)) :
    WF hash c1 ∧ c1.cap = c.cap ∧ c1.delThresh = c.delThresh ∧
    ((c1.listLen = c.listLen ∧ c1.ll.length = c.ll.length ∧ removes [res] = 0) ∨
     (c1.listLen = c.listLen ∧ c1.ll.length + 1 = c.ll.length ∧ removes [res] = 1) ∨
     (∃ c2, c2.listLen = c.listLen ∧ c2.cap = c.cap ∧ c2.delThresh = c.delThresh ∧
        c2.ll.length = c.ll.length + 1 ∧ trimAmount c2 ≤ c2.ll.length ∧
        c1.ll.length = c2.ll.length - trimAmount c2 ∧
        c1.listLen = (if trimFires c2 then wrapInt (trimCount c2 - trimExcess c2)
          else trimCount c2) ∧ removes [res] = 0)) := by
  cases op with
  | get k =>
    simp only [step, Option.some.injEq, Prod.mk.injEq] at hs
    obtain ⟨rfl, rfl⟩ := hs
    obtain ⟨_, _, _, f4, _, f6, f7, f8⟩ := Get_frame hash c k
    exact ⟨WF_Get h k, f4, f6, Or.inl ⟨f7, f8.length_eq, by simp [removes]⟩⟩
  | add k v =>
    simp only [step] at hs
    by_cases hk : c.has hash k
    · rw [Add_present hash c k v hk] at hs
      simp only [Option.map_some', Option.some.injEq, Prod.mk.injEq] at hs
      obtain ⟨rfl, rfl⟩ := hs
      exact ⟨h, rfl, rfl, Or.inl ⟨rfl, rfl, by simp [removes]⟩⟩
    · rw [Add_absent hash c k v hk] at hs
      have hw := WF_addEntry h k v ((not_has_iff hash c k).mp hk)
      have hX : (addEntry hash c k v).listLen = c.listLen ∧ (addEntry hash c k v).cap = c.cap ∧
          (addEntry hash c k v).delThresh = c.delThresh := by
        rw [addEntry_eq]; exact ⟨rfl, rfl, rfl⟩
      obtain ⟨x1, x2, x3⟩ := hX
      have hxl : (addEntry hash c k v).ll.length = c.ll.length + 1 := by simp [addEntry_ll]
      have hn : trimAmount (addEntry hash c k v) ≤ (addEntry hash c k v).ll.length := by
        by_contra hlt
        rw [trimStep_fail hw (by omega)] at hs
        simp at hs
      obtain ⟨c3, g1, g2, g3, _, _, g6, _, g8, _, g10, _⟩ := trimStep_ok hw hn
      rw [g1] at hs
      simp only [Option.map_some', Option.some.injEq, Prod.mk.injEq] at hs
      obtain ⟨rfl, rfl⟩ := hs
      refine ⟨g2, g6.trans x2, g8.trans x3, Or.inr (Or.inr ⟨addEntry hash c k v, x1, x2, x3,
        hxl, hn, ?_, g10, by simp [removes]⟩)⟩
      rw [g3, List.length_take]
      omega
  | remove k =>
    simp only [step] at hs
    by_cases hk : c.has hash k
    · obtain ⟨p, hp⟩ := (has_iff_get hash c k).mp hk
      obtain ⟨e, e1, e2, e3⟩ := Remove_present h hp
      rw [e3] at hs
      simp only [Option.map_some', Option.some.injEq, Prod.mk.injEq] at hs
      obtain ⟨rfl, rfl⟩ := hs
      refine ⟨WF_unlink h hp e1, rfl, rfl, Or.inr (Or.inl ⟨rfl, ?_, by simp [removes]⟩)⟩
      simp only [unlink, listRemove]
      rw [List.length_erase_of_mem e2]
      have := List.length_pos_of_mem e2
      omega
    · rw [Remove_absent hash c k ((not_has_iff hash c k).mp hk)] at hs
      simp only [Option.map_some', Option.some.injEq, Prod.mk.injEq] at hs
      obtain ⟨rfl, rfl⟩ := hs
      exact ⟨h, rfl, rfl, Or.inl ⟨rfl, rfl, by simp [removes]⟩⟩

/-- One call keeps the relation between the counter and the list: where the
arithmetic of `trim` is exact the counter is `Len()` plus the number of
successful `Remove` calls, and it stays at or below
`capacity + max(delThresh - 2, 0)`. -/
theorem step_counter {hash : String → Nat} {c : Cache} (h : WF hash c) (r : Nat)
    (hsync : c.listLen = ((c.ll.length + r : Nat) : Int)) (hd : 1 ≤ c.delThresh)
    (hd2 : c.delThresh < 9223372036854775808)
    (hb : c.cap + c.delThresh ≤ 9223372036854775808)
    (hbound : c.ll.length + r ≤ c.cap + (c.delThresh - 2))
    (op : Op) (res : Res) (c1 : Cache) (hs : step hash c op = some (res, c1)) :
    WF hash c1 ∧ c1.cap = c.cap ∧ c1.delThresh = c.delThresh ∧
      c1.listLen = ((c1.ll.length + (r + removes [res]) : Nat) : Int) ∧
      c1.ll.length + (r + removes [res]) ≤ c.cap + (c.delThresh - 2) := by
  obtain ⟨w, k1, k2, hc⟩ := step_cases h op res c1 hs
  refine ⟨w, k1, k2, ?_⟩
  rcases hc with ⟨a1, a2, a3⟩ | ⟨a1, a2, a3⟩ | ⟨c2, b1, b2, b3, b4, b5, b6, b7, b8⟩
  · rw [a1, a2, a3, hsync]; exact ⟨rfl, hbound⟩
  · rw [a1, a3, hsync]
    constructor
    · congr 1; omega
    · omega
  · rw [b8]
    obtain ⟨t1, t2, t3⟩ := trim_arith c2 (c.ll.length + r) (b1.trans hsync)
      (by rw [b2, b3]; exact hb) (by rw [b2, b3]; omega) (by rw [b3]; exact hd)
      (by rw [b3]; exact hd2)
    rw [b2, b3] at t1
    rw [b2] at t2
    by_cases hf : trimFires c2
    · obtain ⟨u1, u2⟩ := t2 hf
      have hamt : trimAmount c2 = c.ll.length + r + 1 - c.cap := by
        rw [trimAmount, if_pos hf, u1]
      have := t1.mp hf
      rw [if_pos hf, u2] at b7
      rw [hamt, b4] at b6
      rw [hamt, b4] at b5
      rw [b7, b6]
      constructor
      · congr 1; omega
      · omega
    · have hamt : trimAmount c2 = 0 := by rw [trimAmount, if_neg hf]
      have hnf : ¬ (c.cap + c.delThresh ≤ c.ll.length + r + 2) := fun hh => hf (t1.mpr hh)
      rw [if_neg hf, t3 hf] at b7
      rw [hamt, b4] at b6
      rw [b7, b6]
      constructor
      · push_cast; omega
      · omega

theorem run_counter {hash : String → Nat} : ∀ (ops : List Op) (c : Cache) (r : Nat)
    (rs : List Res) (c1 : Cache), WF hash c →
    c.listLen = ((c.ll.length + r : Nat) : Int) → 1 ≤ c.delThresh →
    c.delThresh < 9223372036854775808 → c.cap + c.delThresh ≤ 9223372036854775808 →
    c.ll.length + r ≤ c.cap + (c.delThresh - 2) →
    run hash c ops = some (rs, c1) →
    WF hash c1 ∧ c1.cap = c.cap ∧ c1.delThresh = c.delThresh ∧
      c1.listLen = ((c1.ll.length + (r + removes rs) : Nat) : Int) ∧
      c1.ll.length + (r + removes rs) ≤ c.cap + (c.delThresh - 2) := by
  intro ops
  induction ops with
  | nil =>
    intro c r rs c1 h hsync _ _ _ hbound hrun
    simp only [run, Option.some.injEq, Prod.mk.injEq] at hrun
    obtain ⟨rfl, rfl⟩ := hrun
    exact ⟨h, rfl, rfl, by simpa [removes] using hsync, by simpa [removes] using hbound⟩
  | cons op ops ih =>
    intro c r rs c1 h hsync hd hd2 hb hbound hrun
    simp only [run] at hrun
    cases hst : step hash c op with
    | none => rw [hst] at hrun; simp at hrun
    | some q =>
      rw [hst] at hrun
      simp only at hrun
      cases hr2 : run hash q.2 ops with
      | none => rw [hr2] at hrun; simp at hrun
      | some q2 =>
        rw [hr2] at hrun
        simp only [Option.map_some', Option.some.injEq, Prod.mk.injEq] at hrun
        obtain ⟨rfl, rfl⟩ := hrun
        obtain ⟨w, k1, k2, k3, k4⟩ := step_counter h r hsync hd hd2 hb hbound op q.1 q.2 hst
        obtain ⟨w2, m1, m2, m3, m4⟩ := ih q.2 (r + removes [q.1]) q2.1 q2.2 w k3
          (by rw [k2]; exact hd) (by rw [k2]; exact hd2) (by rw [k1, k2]; exact hb) (by rw [k1, k2]; exact k4) hr2
        rw [k1, k2] at m4
        have he : r + removes (q.1 :: q2.1) = r + removes [q.1] + removes q2.1 := by
          rw [removes_cons]; omega
        refine ⟨w2, m1.trans k1, m2.trans k2, ?_, ?_⟩
        · rw [m3, he]
        · rw [he]; exact m4

theorem wrapInt_sub_wrap (a b : Int) : wrapInt (wrapInt a - wrapInt b) = wrapInt (a - b) := by
  unfold wrapInt
  omega

theorem wrapInt_add_const (a b : Int) : wrapInt (wrapInt a + b) = wrapInt (a + b) := by
  unfold wrapInt
  omega

theorem wrapInt_le_self (M : Nat) : wrapInt M ≤ M := by
  unfold wrapInt
  omega

/-- The test and the excess of `trim` on 64-bit integers, for a counter that is
the wrap of `M`: when the test fails `M + 1` is within the bound, and when it
succeeds with an excess of at most `M + 1` entries, removing that many leaves
at most `cap`. -/
theorem trim_mod_arith (M cap dt : Nat) (hcap : cap < 18446744073709551616) (hd1 : 1 ≤ dt)
    (hd2 : dt < 18446744073709551616) (hM : M ≤ counterBound cap dt) :
    (¬ (wrapInt ((M : Int) + 1 - cap) ≥ wrapInt ((dt : Int) - 1)) →
      M + 1 ≤ counterBound cap dt) ∧
    (wrapInt ((M : Int) + 1 - cap) ≥ wrapInt ((dt : Int) - 1) →
      (wrapInt ((M : Int) + 1 - cap)).toNat ≤ M + 1 →
      M + 1 ≤ cap + (wrapInt ((M : Int) + 1 - cap)).toNat) := by
  unfold counterBound at *
  unfold wrapInt
  by_cases hc : dt ≤ 9223372036854775808
  · simp only [hc, if_true] at hM ⊢
    omega
  · simp only [hc, if_false] at hM ⊢
    omega

theorem trim_mod (c : Cache) (M : Nat) (hL : c.listLen = wrapInt M) :
    trimCount c = wrapInt ((M : Int) + 1) ∧
    trimExcess c = wrapInt ((M : Int) + 1 - c.cap) ∧
    (trimFires c ↔ wrapInt ((M : Int) + 1 - c.cap) ≥ wrapInt ((c.delThresh : Int) - 1)) ∧
    wrapInt (trimCount c - trimExcess c) = wrapInt c.cap := by
  have e1 : trimCount c = wrapInt ((M : Int) + 1) := by
    rw [trimCount, hL, wrapInt_add_const]
  have e2 : trimExcess c = wrapInt ((M : Int) + 1 - c.cap) := by
    rw [trimExcess, e1, toInt, wrapInt_sub_wrap]
  have e3 : wrapInt (toInt c.delThresh - 1) = wrapInt ((c.delThresh : Int) - 1) := by
    rw [toInt, sub_eq_add_neg, wrapInt_add_const, ← sub_eq_add_neg]
  refine ⟨e1, e2, ?_, ?_⟩
  · rw [trimFires, e2, e3]
  · have e4 : (M : Int) + 1 - ((M : Int) + 1 - c.cap) = (c.cap : Int) := by omega
    rw [e1, e2, wrapInt_sub_wrap, e4]

/-- One call keeps the counter of the trimmer the wrap of a number that lies
between `Len()` and the bound. -/
theorem step_bound {hash : String → Nat} {c : Cache} (h : WF hash c) (M : Nat)
    (hL : c.listLen = wrapInt M) (hlen : c.ll.length ≤ M)
    (hM : M ≤ counterBound c.cap c.delThresh) (hcap : c.cap < 18446744073709551616)
    (hd1 : 1 ≤ c.delThresh) (hd2 : c.delThresh < 18446744073709551616)
    (op : Op) (res : Res) (c1 : Cache) (hs : step hash c op = some (res, c1)) :
    WF hash c1 ∧ c1.cap = c.cap ∧ c1.delThresh = c.delThresh ∧
      ∃ M1 : Nat, c1.listLen = wrapInt M1 ∧ c1.ll.length ≤ M1 ∧
        M1 ≤ counterBound c.cap c.delThresh := by
  obtain ⟨w, k1, k2, hc⟩ := step_cases h op res c1 hs
  refine ⟨w, k1, k2, ?_⟩
  rcases hc with ⟨a1, a2, _⟩ | ⟨a1, a2, _⟩ | ⟨c2, b1, b2, b3, b4, b5, b6, b7, _⟩
  · exact ⟨M, a1.trans hL, by omega, hM⟩
  · exact ⟨M, a1.trans hL, by omega, hM⟩
  · obtain ⟨t1, t2, t3, t4⟩ := trim_mod c2 M (b1.trans hL)
    rw [b2] at t2 t4
    rw [b2, b3] at t3
    obtain ⟨m1, m2⟩ := trim_mod_arith M c.cap c.delThresh hcap hd1 hd2 hM
    by_cases hf : trimFires c2
    · have hamt : trimAmount c2 = (wrapInt ((M : Int) + 1 - c.cap)).toNat := by
        rw [trimAmount, if_pos hf, t2]
      rw [if_pos hf, t4] at b7
      rw [hamt, b4] at b5 b6
      have := m2 (t3.mp hf) (by omega)
      refine ⟨c.cap, b7, by omega, ?_⟩
      unfold counterBound
      split <;> omega
    · have hamt : trimAmount c2 = 0 := by rw [trimAmount, if_neg hf]
      rw [if_neg hf, t1] at b7
      rw [hamt, b4] at b6
      have := m1 (fun hh => hf (t3.mpr hh))
      exact ⟨M + 1, by rw [b7]; push_cast; rfl, by omega, this⟩

theorem run_bound {hash : String → Nat} : ∀ (ops : List Op) (c : Cache) (M : Nat)
    (rs : List Res) (c1 : Cache), WF hash c → c.listLen = wrapInt M → c.ll.length ≤ M →
    M ≤ counterBound c.cap c.delThresh → c.cap < 18446744073709551616 →
    1 ≤ c.delThresh → c.delThresh < 18446744073709551616 →
    run hash c ops = some (rs, c1) →
    c1.cap = c.cap ∧ c1.delThresh = c.delThresh ∧
      ∃ M1 : Nat, c1.listLen = wrapInt M1 ∧ c1.ll.length ≤ M1 ∧
        M1 ≤ counterBound c.cap c.delThresh := by
  intro ops
  induction ops with
  | nil =>
    intro c M rs c1 _ hL hlen hM _ _ _ hrun
    simp only [run, Option.some.injEq, Prod.mk.injEq] at hrun
    obtain ⟨rfl, rfl⟩ := hrun
    exact ⟨rfl, rfl, M, hL, hlen, hM⟩
  | cons op ops ih =>
    intro c M rs c1 h hL hlen hM hcap hd1 hd2 hrun
    simp only [run] at hrun
    cases hst : step hash c op with
    | none => rw [hst] at hrun; simp at hrun
    | some q =>
      rw [hst] at hrun
      simp only at hrun
      cases hr2 : run hash q.2 ops with
      | none => rw [hr2] at hrun; simp at hrun
      | some q2 =>
        rw [hr2] at hrun
        simp only [Option.map_some', Option.some.injEq, Prod.mk.injEq] at hrun
        obtain ⟨rfl, rfl⟩ := hrun
        obtain ⟨w, k1, k2, M1, k3, k4, k5⟩ :=
          step_bound h M hL hlen hM hcap hd1 hd2 op q.1 q.2 hst
        obtain ⟨m1, m2, M2, m3, m4, m5⟩ := ih q.2 M1 q2.1 q2.2 w k3 k4
          (by rw [k1, k2]; exact k5) (by rw [k1]; exact hcap) (by rw [k2]; exact hd1)
          (by rw [k2]; exact hd2) hr2
        rw [k1, k2] at m5
        exact ⟨m1.trans k1, m2.trans k2, M2, m3, m4, m5⟩

/-- Where the arithmetic of `trim` is exact, that is for a capacity and a stored
`delThresh` with `1 <= delThresh < 2^63` and `capacity + delThresh <= 2^63`,
in every state
reached from a fresh cache by a sequence of `Get`, `Add` and `Remove` calls,
each processed to quiescence and none with a failed trim, the counter of the
trimmer equals `Len()` plus the number of `Remove` calls that returned true;
so the counter is never below `Len()`. -/
theorem counter_counts_removes (hash : String → Nat) (cp : Nat) (conf : Option CacheConfig)
    (ops : List Op) (rs : List Res) (c1 : Cache)
    (hd : 1 ≤ (NewCache cp conf).delThresh)
    (hd2 : (NewCache cp conf).delThresh < 9223372036854775808)
    (hb : cp + (NewCache cp conf).delThresh ≤ 9223372036854775808)
    (hrun : run hash (NewCache cp conf) ops = some (rs, c1)) :
    c1.listLen = (c1.Len : Int) + (removes rs : Int) ∧ (c1.Len : Int) ≤ c1.listLen := by
  obtain ⟨_, _, _, h4, _⟩ := @run_counter hash ops (NewCache cp conf) 0 rs c1
    (WF_NewCache hash cp conf) rfl hd hd2 hb (Nat.zero_le _) hrun
  unfold Cache.Len
  rw [h4]
  constructor
  · push_cast; omega
  · push_cast; omega

/-- Instance of `counter_counts_removes`: `demoOps` on `NewCache(10, nil)` leave the counter at 3 with
`Len() = 2` and one successful `Remove`. -/
theorem counter_counts_removes_witness :
    1 ≤ (NewCache 10 none).delThresh ∧ (NewCache 10 none).delThresh < 9223372036854775808 ∧
    10 + (NewCache 10 none).delThresh ≤ 9223372036854775808 ∧
    run lenHash (NewCache 10 none) demoOps = some (demoRun.1, demoRun.2) ∧
    (demoRun.2.listLen = (demoRun.2.Len : Int) + (removes demoRun.1 : Int) ∧
      (demoRun.2.Len : Int) ≤ demoRun.2.listLen) ∧
    (demoRun.2.listLen, demoRun.2.Len, removes demoRun.1) = (3, 2, 1) :=
  ⟨by decide, by decide, by decide, by rfl,
    counter_counts_removes lenHash 10 none demoOps demoRun.1 demoRun.2 (by decide) (by decide)
      (by decide) (by rfl), by decide⟩

/-- C19: the counter is not always `Len()` plus the number of successful
`Remove` calls. For a `delThresh` of 2^63 or more `int(c.delThresh) - 1` wraps
to a negative number: on
`NewCache(2, {GetThresh: 1, DelThresh: 18446744073709551615})` the first
`Add("a", "a")` counts 1, finds `d = -1 >= -2`, removes nothing and subtracts
`d` from the counter: the counter is 2 with `Len() = 1` and no `Remove` call. -/
theorem counter_ahead_without_remove :
    (run lenHash (NewCache 2 (some ⟨1, 18446744073709551615⟩)) [Op.add "a" "a"]).map
        (fun r => (r.1, r.2.listLen, r.2.Len, removes r.1)) =
      some ([Res.added true], 2, 1, 0) := by
  decide

/-- C20: for every capacity and every stored `delThresh >= 1` (both `uint`, so
below 2^64), in every state reached from a fresh cache by a sequence of `Get`,
`Add` and `Remove` calls, each processed to quiescence and none with a failed
trim, the counter of the trimmer and `Len()` are at most
`capacity + max(delThresh - 2, 0)`. -/
theorem counter_upper_bound (hash : String → Nat) (cp : Nat) (conf : Option CacheConfig)
    (ops : List Op) (rs : List Res) (c1 : Cache) (hcp : cp < 18446744073709551616)
    (hd1 : 1 ≤ (NewCache cp conf).delThresh)
    (hd2 : (NewCache cp conf).delThresh < 18446744073709551616)
    (hrun : run hash (NewCache cp conf) ops = some (rs, c1)) :
    c1.listLen ≤ (cp : Int) + max (((NewCache cp conf).delThresh : Int) - 2) 0 ∧
    (c1.Len : Int) ≤ (cp : Int) + max (((NewCache cp conf).delThresh : Int) - 2) 0 := by
  obtain ⟨_, _, M, h3, h4, h5⟩ := @run_bound hash ops (NewCache cp conf) 0 rs c1
    (WF_NewCache hash cp conf) rfl (Nat.zero_le _) (Nat.zero_le _) hcp hd1 hd2 hrun
  have hc : (NewCache cp conf).cap = cp := rfl
  rw [hc] at h5
  have hle := wrapInt_le_self M
  have hb : counterBound cp (NewCache cp conf).delThresh ≤ cp + ((NewCache cp conf).delThresh - 2) := by
    unfold counterBound
    split <;> omega
  unfold Cache.Len
  rw [h3]
  constructor <;> omega

/-- Instance of C20: three insertions into
`NewCache(2, {GetThresh: 1, DelThresh: 3})` leave the counter and `Len()` at
3, which is `capacity + delThresh - 2`. -/
theorem counter_upper_bound_witness :
    (2 : Nat) < 18446744073709551616 ∧ 1 ≤ (NewCache 2 (some ⟨1, 3⟩)).delThresh ∧
    (NewCache 2 (some ⟨1, 3⟩)).delThresh < 18446744073709551616 ∧
    run lenHash (NewCache 2 (some ⟨1, 3⟩)) [Op.add "a" "1", Op.add "b" "2", Op.add "c" "3"] =
      some (demoFill.1, demoFill.2) ∧
    (demoFill.2.listLen ≤ ((2 : Nat) : Int) +
        max (((NewCache 2 (some ⟨1, 3⟩)).delThresh : Int) - 2) 0 ∧
      (demoFill.2.Len : Int) ≤ ((2 : Nat) : Int) +
        max (((NewCache 2 (some ⟨1, 3⟩)).delThresh : Int) - 2) 0) ∧
    (demoFill.2.listLen, demoFill.2.Len) = (3, 3) :=
  ⟨by decide, by decide, by decide, by rfl,
    counter_upper_bound lenHash 2 (some ⟨1, 3⟩)
      [Op.add "a" "1", Op.add "b" "2", Op.add "c" "3"] demoFill.1 demoFill.2 (by decide)
      (by decide) (by decide) (by rfl), by decide⟩

end Golru
